import Mathlib

/-!
Verification of the operator-fusion analysis core
(`src/relay/analysis/graph_partitioner.h` and its spec).

The repository ships only the two headers; the function bodies
(`FindRoot`, `MergeFromTo`, `CheckPath`, `CommitFuse`,
`CountFusedNodesWithNewChild`, `RunFuse`, `Partition`,
`DominatorTree::PostDom`) live in a translation unit that is not part of
the sources.  Everything that the headers do contain (the enumeration
ordering used by `CombinePattern`, `CombinePattern` itself, the default
field initializers of `Edge`, `Node` and `Group`) is embedded directly
from the header; every function body is modelled from the specification,
as marked in the doc comments below.  IR object pointers are modelled as
the post-DFS index of the node they point to.
-/

/-- Modelled from the spec: the `OpPatternKind` enumeration of
`tvm/relay/op_attr_types.h` (not among the sources), with the ordinal
order given in section 6 of the spec:
`kElemWise < kBroadcast < kInjective < kCommReduce < kOutEWiseFusable <
kTuple < kOpaque`. -/
inductive OpPatternKind : Type where
  | kElemWise
  | kBroadcast
  | kInjective
  | kCommReduce
  | kOutEWiseFusable
  | kTuple
  | kOpaque
deriving DecidableEq, Repr, Fintype

/-- The ordinal of a pattern kind (its value as a C enumerator per the
spec's table in section 6). -/
def OpPatternKind.ord : OpPatternKind → Nat
  | .kElemWise => 0
  | .kBroadcast => 1
  | .kInjective => 2
  | .kCommReduce => 3
  | .kOutEWiseFusable => 4
  | .kTuple => 5
  | .kOpaque => 6

/-- Order on pattern kinds induced by the enumeration ordinal; this is
the order the C++ comparison operators on the enum use. -/
def OpPatternKind.le (a b : OpPatternKind) : Prop := a.ord ≤ b.ord

instance : LE OpPatternKind := ⟨OpPatternKind.le⟩

instance : LT OpPatternKind := ⟨fun a b => a.ord < b.ord⟩

instance (a b : OpPatternKind) : Decidable (a ≤ b) :=
  inferInstanceAs (Decidable (a.ord ≤ b.ord))

instance (a b : OpPatternKind) : Decidable (a < b) :=
  inferInstanceAs (Decidable (a.ord < b.ord))

/-- `DominatorTree::CombinePattern` from the header
(graph_partitioner.h, lines 285-288):
`if (lhs > rhs) return lhs; return rhs;`. -/
def CombinePattern (lhs rhs : OpPatternKind) : OpPatternKind :=
  if rhs < lhs then lhs else rhs

/-- `IndexedForwardGraph::Edge` (header lines 150-155).  The target
pointer is modelled as the post-DFS index of the target node, wrapped in
`Option` to mirror the `nullptr` default; the pattern field defaults to
`kOpaque` exactly as the in-class initializer does. -/
structure IFGEdge : Type where
  node : Option Nat := none
  pattern : OpPatternKind := .kOpaque
deriving DecidableEq, Repr

/-- `IndexedForwardGraph::Node` (header lines 157-168): external
reference flag defaults to `false`, the pattern defaults to `kOpaque`,
outputs default to the empty list.  The node's `ref` pointer and `index`
are both modelled by the node's position in `post_dfs_order`. -/
structure IFGNode : Type where
  extern_ref : Bool := false
  pattern : OpPatternKind := .kOpaque
  outputs : List IFGEdge := []
deriving DecidableEq, Repr

/-- `IndexedForwardGraph` (header lines 169-172), reduced to the
post-DFS order; the `node_map` is subsumed by indices. -/
structure IndexedForwardGraph : Type where
  post_dfs_order : List IFGNode
deriving DecidableEq, Repr

/-- Number of nodes of the graph. -/
def IndexedForwardGraph.n (g : IndexedForwardGraph) : Nat :=
  g.post_dfs_order.length

/-- The node at index `i` (out-of-range indices give the
default-initialized node, mirroring that they are never dereferenced). -/
def ifgNode (g : IndexedForwardGraph) (i : Nat) : IFGNode :=
  g.post_dfs_order.getD i {}

/-- The pattern of graph node `i`. -/
def patOf (g : IndexedForwardGraph) (i : Nat) : OpPatternKind :=
  (ifgNode g i).pattern

/-- The targets of the output edges of node `i` (edges with a null
target pointer are never produced by the builder and are dropped). -/
def succIdx (g : IndexedForwardGraph) (i : Nat) : List Nat :=
  (ifgNode g i).outputs.filterMap (fun e => e.node)

/-- Well-formedness of an indexed forward graph, from the spec's
invariants 1-2 in section 8: every edge goes from a producer to a
consumer appearing strictly later in `post_dfs_order`, and all indices
are in range. -/
def WFGraph (g : IndexedForwardGraph) : Prop :=
  ∀ i, i < g.n → ∀ e ∈ (ifgNode g i).outputs,
    ∃ t, e.node = some t ∧ i < t ∧ t < g.n

instance (g : IndexedForwardGraph) : Decidable (WFGraph g) := by
  unfold WFGraph
  infer_instance

/-- Modelled from the spec: the per-Op pattern attribute lookup that the
partitioner consumes (section 6; the registry itself is outside the
sources).  Section 7: a missing registration is treated as `kOpaque`
with no error surfaced. -/
def opPatternLookup (reg : List (Nat × OpPatternKind)) (op : Nat) :
    OpPatternKind :=
  ((reg.lookup op).getD .kOpaque)

/-- Claim C2: the pattern-combination operation of the dominator tree is
the maximum under the ordinal `kElemWise < kBroadcast < kInjective <
kCommReduce < kOutEWiseFusable < kTuple < kOpaque`, and it is
commutative, associative and idempotent. -/
theorem combinePattern_is_max_comm_assoc_idem :
    (∀ a b : OpPatternKind,
       (CombinePattern a b).ord = max a.ord b.ord) ∧
    (∀ a b : OpPatternKind, CombinePattern a b = CombinePattern b a) ∧
    (∀ a b c : OpPatternKind,
       CombinePattern a (CombinePattern b c)
         = CombinePattern (CombinePattern a b) c) ∧
    (∀ a : OpPatternKind, CombinePattern a a = a) := by
  refine ⟨?_, ?_, ?_, ?_⟩ <;> decide

/-- Claim C10: the default pattern of every `IndexedForwardGraph` edge
and node is `kOpaque` (header in-class initializers, lines 154 and 165),
and an operator without registered pattern metadata is looked up as
`kOpaque` without surfacing an error. -/
theorem default_pattern_kOpaque (reg : List (Nat × OpPatternKind))
    (op : Nat) (habsent : reg.lookup op = none) :
    ({} : IFGEdge).pattern = .kOpaque ∧
    ({} : IFGNode).pattern = .kOpaque ∧
    opPatternLookup reg op = .kOpaque := by
  refine ⟨rfl, rfl, ?_⟩
  simp [opPatternLookup, habsent]

/-- Witness for C10 at a concrete empty registry. -/
theorem default_pattern_kOpaque_witness :
    ([] : List (Nat × OpPatternKind)).lookup 7 = none ∧
    (({} : IFGEdge).pattern = .kOpaque ∧
     ({} : IFGNode).pattern = .kOpaque ∧
     opPatternLookup [] 7 = .kOpaque) :=
  ⟨by decide, default_pattern_kOpaque [] 7 (by decide)⟩

/-- `GraphPartitioner::Group` (header lines 400-424): union-find parent
pointer (default null), the group pattern, the reference to the root
node, the optional anchor reference (null unless the pattern is
`kOutEWiseFusable`) and the node count (default 1).  The two object
references are modelled as node indices; `attrs` is omitted (never
touched by the partition algorithm). -/
structure GroupRec : Type where
  parent : Option Nat := none
  pattern : OpPatternKind := .kOpaque
  root_ref : Nat := 0
  anchor_ref : Option Nat := none
  num_nodes : Nat := 1
deriving DecidableEq, Repr

/-- The group at index `i` of the group vector (out-of-range indices
give the default record; the algorithm never reads them on well-formed
input). -/
def groupAt (gs : List GroupRec) (i : Nat) : GroupRec :=
  (gs[i]?).getD {}

/-- The union-find parent pointer of the group at index `i`. -/
def parentOf (gs : List GroupRec) (i : Nat) : Option Nat :=
  (groupAt gs i).parent

/-- The group at index `i` is a union-find root (null parent). -/
def IsRootIdx (gs : List GroupRec) (i : Nat) : Prop :=
  parentOf gs i = none

instance (gs : List GroupRec) (i : Nat) : Decidable (IsRootIdx gs i) :=
  inferInstanceAs (Decidable (parentOf gs i = none))

/-- Fuel-bounded walk up the parent pointers (the loop inside
`Group::FindRoot`, without the compression writes). -/
def rootOfAux (gs : List GroupRec) : Nat → Nat → Nat
  | 0, i => i
  | fuel + 1, i =>
    match parentOf gs i with
    | none => i
    | some p => rootOfAux gs fuel p

/-- The canonical root of the group at index `i`; `gs.length` steps of
fuel always suffice on acyclic parent forests. -/
def rootOf (gs : List GroupRec) (i : Nat) : Nat :=
  rootOfAux gs gs.length i

/-- The exact parent chain from a group up to its root: `ChainTo gs i l`
says `l` lists `i`, its parent, its grandparent, ..., ending at the root
of the forest containing `i`. -/
inductive ChainTo (gs : List GroupRec) : Nat → List Nat → Prop where
  | root {i : Nat} : parentOf gs i = none → ChainTo gs i [i]
  | step {i p : Nat} {l : List Nat} :
      parentOf gs i = some p → ChainTo gs p l → ChainTo gs i (i :: l)

/-- Well-formed group forest: parent pointers stay in range and every
group reaches a root along a duplicate-free in-range chain. -/
structure WFS (gs : List GroupRec) : Prop where
  inRange : ∀ i p, parentOf gs i = some p → i < gs.length ∧ p < gs.length
  chain : ∀ i, i < gs.length →
    ∃ l, ChainTo gs i l ∧ l.Nodup ∧ ∀ x ∈ l, x < gs.length

theorem chainTo_ne_nil {gs : List GroupRec} {i : Nat} {l : List Nat}
    (h : ChainTo gs i l) : l ≠ [] := by
  cases h <;> simp

theorem chainTo_head {gs : List GroupRec} {i : Nat} {l : List Nat}
    (h : ChainTo gs i l) : ∃ l', l = i :: l' := by
  cases h <;> exact ⟨_, rfl⟩

theorem chainTo_unique {gs : List GroupRec} {i : Nat} {l l' : List Nat}
    (h : ChainTo gs i l) (h' : ChainTo gs i l') : l = l' := by
  induction h generalizing l' with
  | root hr => cases h' with
    | root => rfl
    | step hp _ => rw [hr] at hp; cases hp
  | step hp _ ih => cases h' with
    | root hr => rw [hr] at hp; cases hp
    | step hp' hc' =>
      rw [hp'] at hp
      cases hp
      rw [ih hc']

theorem chainTo_getLast_root {gs : List GroupRec} {i : Nat} {l : List Nat}
    (h : ChainTo gs i l) :
    IsRootIdx gs (l.getLast (chainTo_ne_nil h)) := by
  induction h with
  | root hr => simpa [IsRootIdx] using hr
  | step hp hc ih =>
    rwa [List.getLast_cons (chainTo_ne_nil hc)]

theorem chainTo_mem_root_eq_getLast {gs : List GroupRec} {i a : Nat}
    {l : List Nat} (h : ChainTo gs i l) (ha : a ∈ l)
    (hr : IsRootIdx gs a) : a = l.getLast (chainTo_ne_nil h) := by
  induction h with
  | root _ =>
    simp only [List.mem_singleton] at ha
    simp [ha]
  | step hp hc ih =>
    rcases List.mem_cons.mp ha with rfl | ha'
    · rw [IsRootIdx, hp] at hr; cases hr
    · rw [List.getLast_cons (chainTo_ne_nil hc)]
      exact ih ha'

theorem rootOfAux_of_root {gs : List GroupRec} {i : Nat}
    (hr : IsRootIdx gs i) : ∀ fuel, rootOfAux gs fuel i = i := by
  intro fuel
  cases fuel with
  | zero => rfl
  | succ f => simp [rootOfAux, show parentOf gs i = none from hr]

theorem chainTo_mem_interior_parent {gs : List GroupRec} {i a : Nat}
    {l : List Nat} (h : ChainTo gs i l) (ha : a ∈ l)
    (hne : a ≠ l.getLast (chainTo_ne_nil h)) :
    ∃ p, parentOf gs a = some p := by
  by_cases hr : IsRootIdx gs a
  · exact absurd (chainTo_mem_root_eq_getLast h ha hr) hne
  · rcases hp : parentOf gs a with _ | p
    · exact absurd hp hr
    · exact ⟨p, rfl⟩

theorem rootOfAux_eq_getLast {gs : List GroupRec} {i : Nat} {l : List Nat}
    (h : ChainTo gs i l) :
    ∀ fuel, l.length ≤ fuel + 1 →
      rootOfAux gs fuel i = l.getLast (chainTo_ne_nil h) := by
  induction h with
  | root hr =>
    intro fuel _
    simp [rootOfAux_of_root hr fuel]
  | @step j p l' hp hc ih =>
    intro fuel hlen
    cases fuel with
    | zero =>
      exfalso
      rcases chainTo_head hc with ⟨l'', rfl⟩
      simp at hlen
    | succ f =>
      rw [List.getLast_cons (chainTo_ne_nil hc)]
      have hstep : rootOfAux gs (f + 1) j = rootOfAux gs f p := by
        simp [rootOfAux, hp]
      rw [hstep]
      exact ih f (by simpa using Nat.le_of_succ_le_succ hlen)

theorem nodup_length_le {l : List Nat} {n : Nat} (hd : l.Nodup)
    (hb : ∀ x ∈ l, x < n) : l.length ≤ n := by
  have h1 : l.toFinset.card = l.length := List.toFinset_card_of_nodup hd
  have h2 : l.toFinset ⊆ Finset.range n := by
    intro x hx
    simp only [List.mem_toFinset] at hx
    exact Finset.mem_range.mpr (hb x hx)
  calc l.length = l.toFinset.card := h1.symm
    _ ≤ (Finset.range n).card := Finset.card_le_card h2
    _ = n := Finset.card_range n

theorem rootOf_eq_getLast {gs : List GroupRec} (hw : WFS gs) {i : Nat}
    (hi : i < gs.length) {l : List Nat} (h : ChainTo gs i l) :
    rootOf gs i = l.getLast (chainTo_ne_nil h) := by
  rcases hw.chain i hi with ⟨l', hc', hd', hb'⟩
  cases chainTo_unique h hc'
  exact rootOfAux_eq_getLast h gs.length
    (le_trans (nodup_length_le hd' hb') (Nat.le_succ _))

theorem chainTo_getLast_mem {gs : List GroupRec} {i : Nat} {l : List Nat}
    (h : ChainTo gs i l) : l.getLast (chainTo_ne_nil h) ∈ l :=
  List.getLast_mem _

theorem rootOf_isRoot {gs : List GroupRec} (hw : WFS gs) {i : Nat}
    (hi : i < gs.length) : IsRootIdx gs (rootOf gs i) := by
  rcases hw.chain i hi with ⟨l, hc, _, _⟩
  rw [rootOf_eq_getLast hw hi hc]
  exact chainTo_getLast_root hc

theorem rootOf_lt {gs : List GroupRec} (hw : WFS gs) {i : Nat}
    (hi : i < gs.length) : rootOf gs i < gs.length := by
  rcases hw.chain i hi with ⟨l, hc, _, hb⟩
  rw [rootOf_eq_getLast hw hi hc]
  exact hb _ (chainTo_getLast_mem hc)

theorem rootOf_of_root {gs : List GroupRec} {i : Nat}
    (hr : IsRootIdx gs i) : rootOf gs i = i :=
  rootOfAux_of_root hr gs.length

theorem rootOf_rootOf {gs : List GroupRec} (hw : WFS gs) {i : Nat}
    (hi : i < gs.length) : rootOf gs (rootOf gs i) = rootOf gs i :=
  rootOf_of_root (rootOf_isRoot hw hi)

theorem groupAt_set {gs : List GroupRec} {i : Nat} (hi : i < gs.length)
    (a : GroupRec) (j : Nat) :
    groupAt (gs.set i a) j = if j = i then a else groupAt gs j := by
  by_cases h : j = i
  · subst h
    simp [groupAt, List.getElem?_set_self hi]
  · simp [groupAt, List.getElem?_set_ne (fun he => h he.symm), h]

/-- Modelled from the spec (section 4.4, Merging):
`MergeFromTo(child, parent)` with both arguments union-find roots is a
no-op when they are identical; otherwise it sets `child.parent = parent`
and adds `child.num_nodes` to `parent.num_nodes`, and when
`child.anchor_ref` is non-null it asserts `parent.anchor_ref == null`
(modelled as returning `none` on assertion failure) and copies the
child's `anchor_ref` and `pattern` to the parent. -/
def MergeFromTo (gs : List GroupRec) (child par : Nat) :
    Option (List GroupRec) :=
  if child = par then some gs
  else if (groupAt gs child).anchor_ref = none then
    some ((gs.set child { groupAt gs child with parent := some par }).set par
      { groupAt gs par with
          num_nodes := (groupAt gs par).num_nodes
            + (groupAt gs child).num_nodes })
  else if (groupAt gs par).anchor_ref = none then
    some ((gs.set child { groupAt gs child with parent := some par }).set par
      { groupAt gs par with
          num_nodes := (groupAt gs par).num_nodes
            + (groupAt gs child).num_nodes,
          anchor_ref := (groupAt gs child).anchor_ref,
          pattern := (groupAt gs child).pattern })
  else none

theorem mergeFromTo_self (gs : List GroupRec) (c : Nat) :
    MergeFromTo gs c c = some gs := by
  simp [MergeFromTo]

theorem mergeFromTo_length {gs gs' : List GroupRec} {c p : Nat}
    (h : MergeFromTo gs c p = some gs') : gs'.length = gs.length := by
  unfold MergeFromTo at h
  by_cases h1 : c = p
  · rw [if_pos h1] at h; injection h with h2; rw [← h2]
  · rw [if_neg h1] at h
    by_cases h2 : (groupAt gs c).anchor_ref = none
    · rw [if_pos h2] at h; injection h with h3; rw [← h3]; simp
    · rw [if_neg h2] at h
      by_cases h4 : (groupAt gs p).anchor_ref = none
      · rw [if_pos h4] at h; injection h with h5; rw [← h5]; simp
      · rw [if_neg h4] at h; cases h

/-- Field-level description of a successful non-trivial merge. -/
theorem mergeFromTo_spec {gs gs' : List GroupRec} {c p : Nat}
    (hcp : c ≠ p) (hc : c < gs.length) (hp : p < gs.length)
    (h : MergeFromTo gs c p = some gs') :
    (∀ j, j ≠ c → j ≠ p → groupAt gs' j = groupAt gs j) ∧
    groupAt gs' c = { groupAt gs c with parent := some p } ∧
    (groupAt gs' p).parent = (groupAt gs p).parent ∧
    (groupAt gs' p).root_ref = (groupAt gs p).root_ref ∧
    (groupAt gs' p).num_nodes
      = (groupAt gs p).num_nodes + (groupAt gs c).num_nodes ∧
    (((groupAt gs c).anchor_ref = none ∧
        (groupAt gs' p).anchor_ref = (groupAt gs p).anchor_ref ∧
        (groupAt gs' p).pattern = (groupAt gs p).pattern) ∨
     ((groupAt gs c).anchor_ref ≠ none ∧ (groupAt gs p).anchor_ref = none ∧
        (groupAt gs' p).anchor_ref = (groupAt gs c).anchor_ref ∧
        (groupAt gs' p).pattern = (groupAt gs c).pattern)) := by
  unfold MergeFromTo at h
  rw [if_neg hcp] at h
  have hc1 : c < (gs.set c { groupAt gs c with parent := some p }).length := by
    simpa using hc
  have hp1 : p < (gs.set c { groupAt gs c with parent := some p }).length := by
    simpa using hp
  have hpc : p ≠ c := fun he => hcp he.symm
  by_cases hanc : (groupAt gs c).anchor_ref = none
  · rw [if_pos hanc] at h
    injection h with h2
    subst h2
    refine ⟨?_, ?_, ?_, ?_, ?_, ?_⟩
    · intro j hjc hjp
      rw [groupAt_set hp1, if_neg hjp, groupAt_set hc, if_neg hjc]
    · rw [groupAt_set hp1, if_neg hcp, groupAt_set hc, if_pos rfl]
    · rw [groupAt_set hp1, if_pos rfl]
    · rw [groupAt_set hp1, if_pos rfl]
    · rw [groupAt_set hp1, if_pos rfl]
    · rw [groupAt_set hp1, if_pos rfl]
      exact Or.inl ⟨hanc, rfl, rfl⟩
  · rw [if_neg hanc] at h
    by_cases hpanc : (groupAt gs p).anchor_ref = none
    · rw [if_pos hpanc] at h
      injection h with h2
      subst h2
      refine ⟨?_, ?_, ?_, ?_, ?_, ?_⟩
      · intro j hjc hjp
        rw [groupAt_set hp1, if_neg hjp, groupAt_set hc, if_neg hjc]
      · rw [groupAt_set hp1, if_neg hcp, groupAt_set hc, if_pos rfl]
      · rw [groupAt_set hp1, if_pos rfl]
      · rw [groupAt_set hp1, if_pos rfl]
      · rw [groupAt_set hp1, if_pos rfl]
      · rw [groupAt_set hp1, if_pos rfl]
        exact Or.inr ⟨hanc, hpanc, rfl, rfl⟩
    · rw [if_neg hpanc] at h; cases h

theorem chainTo_congr {gs gs' : List GroupRec} {i : Nat} {l : List Nat}
    (hpar : ∀ x ∈ l, parentOf gs' x = parentOf gs x)
    (h : ChainTo gs i l) : ChainTo gs' i l := by
  induction h with
  | @root j hr =>
    exact ChainTo.root ((hpar j (by simp)).trans hr)
  | @step j q l' hq hc ih =>
    refine ChainTo.step ((hpar j (by simp)).trans hq) (ih ?_)
    intro x hx
    exact hpar x (List.mem_cons_of_mem _ hx)

theorem chainTo_extend {gs gs' : List GroupRec} {c p j : Nat} {l : List Nat}
    (h : ChainTo gs j l) (hcroot : parentOf gs c = none)
    (hlast : l.getLast (chainTo_ne_nil h) = c)
    (hpar : ∀ x ∈ l, x ≠ c → parentOf gs' x = parentOf gs x)
    (hc' : parentOf gs' c = some p)
    (hp' : parentOf gs' p = none) :
    ChainTo gs' j (l ++ [p]) := by
  induction h with
  | @root i hr =>
    have : i = c := by simpa using hlast
    subst this
    exact ChainTo.step hc' (ChainTo.root hp')
  | @step i q l' hq hc ih =>
    have hine : i ≠ c := by
      intro he
      rw [he, hcroot] at hq
      cases hq
    have hlast' : l'.getLast (chainTo_ne_nil hc) = c := by
      rwa [List.getLast_cons (chainTo_ne_nil hc)] at hlast
    refine ChainTo.step ((hpar i (by simp) hine).trans hq) ?_
    exact ih hlast' (fun x hx hxc => hpar x (List.mem_cons_of_mem _ hx) hxc)

/-- After a successful merge of distinct roots `c → p`, every group has
a well-formed chain in the new forest and its new root is `p` exactly
when its old root was `c`. -/
theorem merge_chain_cases {gs gs' : List GroupRec} {c p : Nat}
    (hw : WFS gs) (hcr : IsRootIdx gs c) (hpr : IsRootIdx gs p)
    (hcp : c ≠ p) (hc : c < gs.length) (hp : p < gs.length)
    (h : MergeFromTo gs c p = some gs') :
    ∀ j, j < gs.length →
      ∃ l', ChainTo gs' j l' ∧ l'.Nodup ∧ (∀ x ∈ l', x < gs.length) ∧
        rootOf gs' j = (if rootOf gs j = c then p else rootOf gs j) := by
  have hspec := mergeFromTo_spec hcp hc hp h
  have hlen := mergeFromTo_length h
  have hparentOf : ∀ j, parentOf gs' j
      = if j = c then some p else parentOf gs j := by
    intro j
    by_cases hjc : j = c
    · subst hjc
      rw [if_pos rfl]
      show (groupAt gs' j).parent = some p
      rw [hspec.2.1]
    · rw [if_neg hjc]
      by_cases hjp : j = p
      · subst hjp
        exact hspec.2.2.1
      · show (groupAt gs' j).parent = (groupAt gs j).parent
        rw [hspec.1 j hjc hjp]
  intro j hj
  rcases hw.chain j hj with ⟨l, hchain, hnodup, hbound⟩
  have hlast := rootOf_eq_getLast hw hj hchain
  by_cases hcl : rootOf gs j = c
  · -- the old chain ends at `c`; the new chain continues one step to `p`
    have hgl : l.getLast (chainTo_ne_nil hchain) = c := by
      rw [← hlast]; exact hcl
    have hpnotin : p ∉ l := by
      intro hmem
      have := chainTo_mem_root_eq_getLast hchain hmem hpr
      rw [hgl] at this
      exact hcp this.symm
    have hchain' : ChainTo gs' j (l ++ [p]) := by
      refine chainTo_extend hchain hcr hgl ?_ ?_ ?_
      · intro x _ hxc
        rw [hparentOf x, if_neg hxc]
      · rw [hparentOf c, if_pos rfl]
      · rw [hparentOf p, if_neg (fun he => hcp he.symm)]
        exact hpr
    refine ⟨l ++ [p], hchain', ?_, ?_, ?_⟩
    · simp [List.nodup_append, hnodup, hpnotin]
    · intro x hx
      rcases List.mem_append.mp hx with hx1 | hx2
      · exact hbound x hx1
      · simp at hx2; rw [hx2]; exact hp
    · rw [if_pos hcl]
      have hne : l ++ [p] ≠ [] := by simp
      have hlen' : (l ++ [p]).length ≤ gs'.length + 1 := by
        rw [hlen]
        simpa using nodup_length_le hnodup hbound
      have := rootOfAux_eq_getLast hchain' gs'.length hlen'
      rw [rootOf, this]
      simp
  · -- the old chain avoids `c` entirely and survives unchanged
    have hcnotin : c ∉ l := by
      intro hmem
      have := chainTo_mem_root_eq_getLast hchain hmem hcr
      rw [← hlast] at this
      exact hcl this.symm
    have hchain' : ChainTo gs' j l := by
      refine chainTo_congr ?_ hchain
      intro x hx
      have hxc : x ≠ c := by
        intro he
        rw [he] at hx
        exact hcnotin hx
      rw [hparentOf x, if_neg hxc]
    refine ⟨l, hchain', hnodup, hbound, ?_⟩
    rw [if_neg hcl]
    have hlen' : l.length ≤ gs'.length + 1 := by
      rw [hlen]
      exact le_trans (nodup_length_le hnodup hbound) (Nat.le_succ _)
    have := rootOfAux_eq_getLast hchain' gs'.length hlen'
    rw [rootOf, this, ← hlast]

theorem merge_WFS {gs gs' : List GroupRec} {c p : Nat}
    (hw : WFS gs) (hcr : IsRootIdx gs c) (hpr : IsRootIdx gs p)
    (hcp : c ≠ p) (hc : c < gs.length) (hp : p < gs.length)
    (h : MergeFromTo gs c p = some gs') : WFS gs' := by
  have hlen := mergeFromTo_length h
  have hspec := mergeFromTo_spec hcp hc hp h
  have hparentOf : ∀ j, parentOf gs' j
      = if j = c then some p else parentOf gs j := by
    intro j
    by_cases hjc : j = c
    · subst hjc
      rw [if_pos rfl]
      show (groupAt gs' j).parent = some p
      rw [hspec.2.1]
    · rw [if_neg hjc]
      by_cases hjp : j = p
      · subst hjp
        exact hspec.2.2.1
      · show (groupAt gs' j).parent = (groupAt gs j).parent
        rw [hspec.1 j hjc hjp]
  refine ⟨?_, ?_⟩
  · intro i q hq
    rw [hparentOf i] at hq
    by_cases hic : i = c
    · rw [if_pos hic] at hq
      injection hq with hq
      rw [hlen, hic]
      exact ⟨hc, hq ▸ hp⟩
    · rw [if_neg hic] at hq
      rw [hlen]
      exact hw.inRange i q hq
  · intro i hi
    rw [hlen] at hi
    rcases merge_chain_cases hw hcr hpr hcp hc hp h i hi with
      ⟨l', hc', hd', hb', _⟩
    exact ⟨l', hc', hd', fun x hx => hlen ▸ hb' x hx⟩

theorem merge_rootOf {gs gs' : List GroupRec} {c p : Nat}
    (hw : WFS gs) (hcr : IsRootIdx gs c) (hpr : IsRootIdx gs p)
    (hcp : c ≠ p) (hc : c < gs.length) (hp : p < gs.length)
    (h : MergeFromTo gs c p = some gs') :
    ∀ j, j < gs.length →
      rootOf gs' j = (if rootOf gs j = c then p else rootOf gs j) := by
  intro j hj
  exact (merge_chain_cases hw hcr hpr hcp hc hp h j hj).choose_spec.2.2.2

/-- The set of node indices whose canonical group is `r`. -/
def kernelOf (gs : List GroupRec) (r : Nat) : Finset Nat :=
  (Finset.range gs.length).filter (fun j => rootOf gs j = r)

/-- Invariant: every root group's node count equals the size of its
kernel. -/
def NumInv (gs : List GroupRec) : Prop :=
  ∀ r, r < gs.length → IsRootIdx gs r →
    (groupAt gs r).num_nodes = (kernelOf gs r).card

/-- Invariant: a group's anchor reference is non-null exactly when its
pattern is `kOutEWiseFusable`. -/
def AnchPointwise (gs : List GroupRec) : Prop :=
  ∀ i, i < gs.length →
    ((groupAt gs i).anchor_ref ≠ none ↔
      (groupAt gs i).pattern = .kOutEWiseFusable)

/-- Invariant: a root group's kernel contains exactly one node of
original pattern `kOutEWiseFusable` when its anchor is set, none
otherwise. -/
def AnchCount (g : IndexedForwardGraph) (gs : List GroupRec) : Prop :=
  ∀ r, r < gs.length → IsRootIdx gs r →
    ((kernelOf gs r).filter
        (fun j => patOf g j = .kOutEWiseFusable)).card
      = (if (groupAt gs r).anchor_ref = none then 0 else 1)

/-- All invariants that the partition algorithm maintains on its group
state. -/
structure StateInv (g : IndexedForwardGraph) (gs : List GroupRec) : Prop where
  wfs : WFS gs
  len : gs.length = g.n
  num : NumInv gs
  apw : AnchPointwise gs
  act : AnchCount g gs

theorem merge_kernelOf_p {gs gs' : List GroupRec} {c p : Nat}
    (hw : WFS gs) (hcr : IsRootIdx gs c) (hpr : IsRootIdx gs p)
    (hcp : c ≠ p) (hc : c < gs.length) (hp : p < gs.length)
    (h : MergeFromTo gs c p = some gs') :
    kernelOf gs' p = kernelOf gs c ∪ kernelOf gs p := by
  have hlen := mergeFromTo_length h
  have hroot := merge_rootOf hw hcr hpr hcp hc hp h
  unfold kernelOf
  rw [hlen, ← Finset.filter_or]
  refine Finset.filter_congr ?_
  intro j hj
  rw [Finset.mem_range] at hj
  rw [hroot j hj]
  by_cases hjc : rootOf gs j = c
  · simp [hjc, hcp]
  · simp [hjc]

theorem merge_kernelOf_other {gs gs' : List GroupRec} {c p : Nat}
    (hw : WFS gs) (hcr : IsRootIdx gs c) (hpr : IsRootIdx gs p)
    (hcp : c ≠ p) (hc : c < gs.length) (hp : p < gs.length)
    (h : MergeFromTo gs c p = some gs') {r : Nat} (hrc : r ≠ c)
    (hrp : r ≠ p) : kernelOf gs' r = kernelOf gs r := by
  have hlen := mergeFromTo_length h
  have hroot := merge_rootOf hw hcr hpr hcp hc hp h
  unfold kernelOf
  rw [hlen]
  refine Finset.filter_congr ?_
  intro j hj
  rw [Finset.mem_range] at hj
  rw [hroot j hj]
  by_cases hjc : rootOf gs j = c
  · simp [hjc, Ne.symm hrp, Ne.symm hrc]
  · simp [hjc]

theorem kernelOf_disjoint {gs : List GroupRec} {c p : Nat} (hcp : c ≠ p) :
    Disjoint (kernelOf gs c) (kernelOf gs p) := by
  rw [Finset.disjoint_left]
  intro a hac hap
  unfold kernelOf at hac hap
  rw [Finset.mem_filter] at hac hap
  exact hcp (hac.2.symm.trans hap.2)

/-- A successful `MergeFromTo` of two distinct in-range roots preserves
all state invariants. -/
theorem merge_StateInv {g : IndexedForwardGraph} {gs gs' : List GroupRec}
    {c p : Nat} (hs : StateInv g gs) (hcr : IsRootIdx gs c)
    (hpr : IsRootIdx gs p) (hc : c < gs.length) (hp : p < gs.length)
    (h : MergeFromTo gs c p = some gs') : StateInv g gs' := by
  by_cases hcp : c = p
  · subst hcp
    rw [mergeFromTo_self] at h
    injection h with h2
    rwa [← h2]
  have hw := hs.wfs
  have hlen := mergeFromTo_length h
  have hspec := mergeFromTo_spec hcp hc hp h
  have hroot := merge_rootOf hw hcr hpr hcp hc hp h
  have hwfs' : WFS gs' := merge_WFS hw hcr hpr hcp hc hp h
  have hrne : ∀ r, r < gs'.length → IsRootIdx gs' r → r ≠ c := by
    intro r _ hrr hre
    subst hre
    have : parentOf gs' r = some p := by
      show (groupAt gs' r).parent = some p
      rw [hspec.2.1]
    rw [IsRootIdx, this] at hrr
    cases hrr
  have hrold : ∀ r, IsRootIdx gs' r → r ≠ c → IsRootIdx gs r := by
    intro r hrr hrc
    by_cases hrp : r = p
    · subst hrp; exact hpr
    · show parentOf gs r = none
      have : parentOf gs' r = parentOf gs r := by
        show (groupAt gs' r).parent = (groupAt gs r).parent
        rw [hspec.1 r hrc hrp]
      rwa [← this]
  refine ⟨hwfs', hlen.trans hs.len, ?_, ?_, ?_⟩
  · -- NumInv
    intro r hr hrr
    have hrc := hrne r hr hrr
    have hrold' := hrold r hrr hrc
    rw [hlen] at hr
    by_cases hrp : r = p
    · rw [hrp, merge_kernelOf_p hw hcr hpr hcp hc hp h,
        Finset.card_union_of_disjoint (kernelOf_disjoint hcp),
        hspec.2.2.2.2.1, hs.num p hp hpr, hs.num c hc hcr]
      ring
    · have heq : groupAt gs' r = groupAt gs r := hspec.1 r hrc hrp
      rw [merge_kernelOf_other hw hcr hpr hcp hc hp h hrc hrp, heq]
      exact hs.num r hr hrold'
  · -- AnchPointwise
    intro i hi
    rw [hlen] at hi
    by_cases hic : i = c
    · subst hic
      have : groupAt gs' i = { groupAt gs i with parent := some p } :=
        hspec.2.1
      rw [this]
      exact hs.apw i hi
    · by_cases hip : i = p
      · subst hip
        rcases hspec.2.2.2.2.2 with ⟨hca, ha, hpat⟩ | ⟨hca, hpa, ha, hpat⟩
        · rw [ha, hpat]
          exact hs.apw i hi
        · rw [ha, hpat]
          have := (hs.apw c hc).mp hca
          constructor
          · intro _; exact this
          · intro _; exact hca
      · rw [hspec.1 i hic hip]
        exact hs.apw i hi
  · -- AnchCount
    intro r hr hrr
    have hrc := hrne r hr hrr
    have hrold' := hrold r hrr hrc
    rw [hlen] at hr
    by_cases hrp : r = p
    · rw [hrp, merge_kernelOf_p hw hcr hpr hcp hc hp h, Finset.filter_union,
        Finset.card_union_of_disjoint
          (Finset.disjoint_filter_filter (kernelOf_disjoint hcp)),
        hs.act c hc hcr, hs.act p hp hpr]
      rcases hspec.2.2.2.2.2 with ⟨hca, ha, _⟩ | ⟨hca, hpa, ha, _⟩
      · rw [ha, if_pos hca, Nat.zero_add]
      · rw [ha, if_neg hca, if_pos hpa, Nat.add_zero]
    · have heq : groupAt gs' r = groupAt gs r := hspec.1 r hrc hrp
      rw [merge_kernelOf_other hw hcr hpr hcp hc hp h hrc hrp, heq]
      exact hs.act r hr hrold'

theorem parentOf_some_lt {gs : List GroupRec} {i p : Nat}
    (h : parentOf gs i = some p) : i < gs.length := by
  by_contra hge
  have : gs[i]? = none := by
    rw [List.getElem?_eq_none_iff]
    omega
  rw [parentOf, groupAt, this] at h
  cases h

/-- Modelled from the spec (section 4.4, Initialization): for each graph
node `n[i]` create a fresh root group with the node's pattern, root
reference `n[i].ref`, `num_nodes = 1`, and `anchor_ref = n[i].ref` iff
the node's pattern is `kOutEWiseFusable`. -/
def InitGroups (g : IndexedForwardGraph) : List GroupRec :=
  (List.range g.n).map fun i =>
    { parent := none
      pattern := patOf g i
      root_ref := i
      anchor_ref :=
        if patOf g i = .kOutEWiseFusable then some i else none
      num_nodes := 1 }

theorem initGroups_length (g : IndexedForwardGraph) :
    (InitGroups g).length = g.n := by
  simp [InitGroups]

theorem groupAt_init (g : IndexedForwardGraph) {i : Nat} (hi : i < g.n) :
    groupAt (InitGroups g) i =
      { parent := none
        pattern := patOf g i
        root_ref := i
        anchor_ref :=
          if patOf g i = .kOutEWiseFusable then some i else none
        num_nodes := 1 } := by
  unfold groupAt InitGroups
  rw [List.getElem?_map, List.getElem?_range hi]
  rfl

theorem parentOf_init (g : IndexedForwardGraph) (i : Nat) :
    parentOf (InitGroups g) i = none := by
  by_cases hi : i < g.n
  · rw [parentOf, groupAt_init g hi]
  · have : (InitGroups g)[i]? = none := by
      rw [List.getElem?_eq_none_iff, initGroups_length]
      omega
    rw [parentOf, groupAt, this]
    rfl

theorem rootOf_init (g : IndexedForwardGraph) (i : Nat) :
    rootOf (InitGroups g) i = i :=
  rootOf_of_root (parentOf_init g i)

theorem wfs_init (g : IndexedForwardGraph) : WFS (InitGroups g) := by
  constructor
  · intro i p hp
    rw [parentOf_init] at hp
    cases hp
  · intro i hi
    refine ⟨[i], ChainTo.root (parentOf_init g i), by simp, ?_⟩
    intro x hx
    rw [List.mem_singleton] at hx
    subst hx
    simpa [initGroups_length] using hi

theorem kernelOf_init (g : IndexedForwardGraph) {r : Nat} (hr : r < g.n) :
    kernelOf (InitGroups g) r = {r} := by
  unfold kernelOf
  rw [initGroups_length]
  ext j
  simp only [Finset.mem_filter, Finset.mem_range, rootOf_init,
    Finset.mem_singleton]
  constructor
  · exact fun h => h.2
  · rintro rfl
    exact ⟨hr, rfl⟩

theorem stateInv_init (g : IndexedForwardGraph) :
    StateInv g (InitGroups g) := by
  refine ⟨wfs_init g, initGroups_length g, ?_, ?_, ?_⟩
  · intro r hr _
    rw [initGroups_length] at hr
    rw [groupAt_init g hr, kernelOf_init g hr]
    simp
  · intro i hi
    rw [initGroups_length] at hi
    rw [groupAt_init g hi]
    by_cases hp : patOf g i = .kOutEWiseFusable <;> simp [hp]
  · intro r hr _
    rw [initGroups_length] at hr
    rw [groupAt_init g hr, kernelOf_init g hr]
    by_cases hp : patOf g r = .kOutEWiseFusable <;>
      simp [hp, Finset.filter_singleton]

/-- Modelled from the spec (section 4.4, Union-find discipline):
the compression pass of `Group::FindRoot` repoints every node on the
walk from `i` to the root so that its parent is the root `r`. -/
def FindRootCompress (r : Nat) : Nat → Nat → List GroupRec → List GroupRec
  | 0, _, gs => gs
  | fuel + 1, i, gs =>
    match parentOf gs i with
    | none => gs
    | some p =>
      FindRootCompress r fuel p
        (gs.set i { groupAt gs i with parent := some r })

/-- Modelled from the spec (section 4.4, Union-find discipline):
`Group::FindRoot` traverses parent pointers to the root and performs
path compression, returning the updated forest together with the root's
index. -/
def FindRoot (gs : List GroupRec) (i : Nat) : List GroupRec × Nat :=
  (FindRootCompress (rootOf gs i) gs.length i gs, rootOf gs i)

theorem findRootCompress_of_root {gs : List GroupRec} {i r : Nat}
    (h : parentOf gs i = none) :
    ∀ fuel, FindRootCompress r fuel i gs = gs := by
  intro fuel
  cases fuel with
  | zero => rfl
  | succ f => simp [FindRootCompress, h]

/-- Effect of the compression pass along an explicit chain: every
non-root chain node's parent is repointed at `r`, and any index that is
not a proper chain node keeps its group record. -/
theorem findRootCompress_spec :
    ∀ (l : List Nat) (gs : List GroupRec) (i fuel r : Nat)
      (h : ChainTo gs i l), l.Nodup → l.length ≤ fuel + 1 →
      l.getLast (chainTo_ne_nil h) = r →
      (∀ a ∈ l, a ≠ r →
        parentOf (FindRootCompress r fuel i gs) a = some r) ∧
      (∀ j, (j ∈ l → j = r) →
        groupAt (FindRootCompress r fuel i gs) j = groupAt gs j) ∧
      (FindRootCompress r fuel i gs).length = gs.length := by
  intro l
  induction l with
  | nil => intro gs i fuel r h; exact absurd rfl (chainTo_ne_nil h)
  | cons a l' ih =>
    intro gs i fuel r h hnodup hfuel hlast
    cases h with
    | root hroot =>
      rw [findRootCompress_of_root hroot fuel]
      refine ⟨?_, fun _ _ => rfl, rfl⟩
      intro b hb hbr
      rw [List.mem_singleton] at hb
      subst hb
      simp at hlast
      exact absurd hlast hbr
    | @step _ p _ hp hc =>
      have hi_lt : a < gs.length := parentOf_some_lt hp
      have hine : a ∉ l' := (List.nodup_cons.mp hnodup).1
      have hlast' : l'.getLast (chainTo_ne_nil hc) = r := by
        rwa [List.getLast_cons (chainTo_ne_nil hc)] at hlast
      have hir : a ≠ r := by
        intro he
        subst he
        exact hine (hlast' ▸ chainTo_getLast_mem hc)
      cases fuel with
      | zero =>
        exfalso
        rcases chainTo_head hc with ⟨l'', rfl⟩
        simp at hfuel
      | succ f =>
        have hstep : FindRootCompress r (f + 1) a gs
            = FindRootCompress r f p
                (gs.set a { groupAt gs a with parent := some r }) := by
          simp [FindRootCompress, hp]
        set gs2 := gs.set a { groupAt gs a with parent := some r } with hgs2
        have hgs2at : ∀ j, groupAt gs2 j
            = if j = a then { groupAt gs a with parent := some r }
              else groupAt gs j := by
          intro j
          exact groupAt_set hi_lt _ j
        have hc2 : ChainTo gs2 p l' := by
          refine chainTo_congr ?_ hc
          intro x hx
          have hxi : x ≠ a := fun he => hine (he ▸ hx)
          show (groupAt gs2 x).parent = (groupAt gs x).parent
          rw [hgs2at x, if_neg hxi]
        have hn2 : l'.Nodup := (List.nodup_cons.mp hnodup).2
        have hf2 : l'.length ≤ f + 1 := by
          rcases chainTo_head hc with ⟨l'', hl''⟩
          simp at hfuel
          omega
        have hlast2 : l'.getLast (chainTo_ne_nil hc2) = r := by
          rw [← hlast']
        rcases ih gs2 p f r hc2 hn2 hf2 hlast2 with ⟨hA, hB, hL⟩
        rw [hstep]
        refine ⟨?_, ?_, ?_⟩
        · intro b hb hbr
          rcases List.mem_cons.mp hb with rfl | hb'
          · have : groupAt (FindRootCompress r f p gs2) b = groupAt gs2 b :=
              hB b (fun hmem => absurd hmem hine)
            show (groupAt (FindRootCompress r f p gs2) b).parent = some r
            rw [this, hgs2at b, if_pos rfl]
          · exact hA b hb' hbr
        · intro j hj
          have hji : j ≠ a := by
            intro he
            subst he
            exact hir (hj (by simp))
          have : groupAt (FindRootCompress r f p gs2) j = groupAt gs2 j :=
            hB j (fun hmem => hj (List.mem_cons_of_mem _ hmem))
          rw [this, hgs2at j, if_neg hji]
        · rw [hL, hgs2]
          simp

/-- Claim C5: `MergeFromTo(child, parent)` on two group roots is a no-op
when they are identical; otherwise it sets `child.parent = parent`, adds
`child.num_nodes` onto `parent.num_nodes`, and when `child.anchor_ref`
is non-null (which requires `parent.anchor_ref` to be null, enforced by
the assertion) it copies the child's anchor reference and pattern to the
parent. -/
theorem mergeFromTo_behavior (gs : List GroupRec) (c p : Nat)
    (hcr : IsRootIdx gs c) (hpr : IsRootIdx gs p)
    (hc : c < gs.length) (hp : p < gs.length) :
    MergeFromTo gs c c = some gs ∧
    (c ≠ p → ∀ gs', MergeFromTo gs c p = some gs' →
      parentOf gs' c = some p ∧
      (groupAt gs' p).num_nodes
        = (groupAt gs p).num_nodes + (groupAt gs c).num_nodes ∧
      ((groupAt gs c).anchor_ref ≠ none →
        (groupAt gs p).anchor_ref = none ∧
        (groupAt gs' p).anchor_ref = (groupAt gs c).anchor_ref ∧
        (groupAt gs' p).pattern = (groupAt gs c).pattern)) := by
  refine ⟨mergeFromTo_self gs c, ?_⟩
  intro hcp gs' h
  have hspec := mergeFromTo_spec hcp hc hp h
  refine ⟨?_, hspec.2.2.2.2.1, ?_⟩
  · show (groupAt gs' c).parent = some p
    rw [hspec.2.1]
  · intro hca
    rcases hspec.2.2.2.2.2 with ⟨hnone, _, _⟩ | ⟨_, hpa, ha, hpat⟩
    · exact absurd hnone hca
    · exact ⟨hpa, ha, hpat⟩

/-- A two-root forest used to witness the merge behavior. -/
def mergePair : List GroupRec :=
  [{ parent := none, pattern := .kOutEWiseFusable, root_ref := 0,
     anchor_ref := some 0, num_nodes := 2 },
   { parent := none, pattern := .kElemWise, root_ref := 1,
     anchor_ref := none, num_nodes := 3 }]

/-- Witness for C5 at a concrete two-root forest. -/
theorem mergeFromTo_behavior_witness :
    (IsRootIdx mergePair 0 ∧ IsRootIdx mergePair 1 ∧
     0 < mergePair.length ∧ 1 < mergePair.length) ∧
    (MergeFromTo mergePair 0 0 = some mergePair ∧
     ((0 : Nat) ≠ 1 → ∀ gs', MergeFromTo mergePair 0 1 = some gs' →
       parentOf gs' 0 = some 1 ∧
       (groupAt gs' 1).num_nodes
         = (groupAt mergePair 1).num_nodes
           + (groupAt mergePair 0).num_nodes ∧
       ((groupAt mergePair 0).anchor_ref ≠ none →
         (groupAt mergePair 1).anchor_ref = none ∧
         (groupAt gs' 1).anchor_ref = (groupAt mergePair 0).anchor_ref ∧
         (groupAt gs' 1).pattern = (groupAt mergePair 0).pattern))) :=
  ⟨⟨by decide, by decide, by decide, by decide⟩,
    mergeFromTo_behavior mergePair 0 1 (by decide) (by decide)
      (by decide) (by decide)⟩

/-- Claim C6: `FindRoot` returns the unique null-parent ancestor of its
argument, performs path compression (afterwards every chain node other
than the root points directly at the root, and untouched indices keep
their records), and is idempotent: applying `FindRoot` to the returned
root in the returned forest changes nothing and returns the same root.
-/
theorem findRoot_spec (gs : List GroupRec) (i : Nat) (hw : WFS gs)
    (hi : i < gs.length) :
    IsRootIdx gs (FindRoot gs i).2 ∧
    (∀ l, (h : ChainTo gs i l) → ∀ a ∈ l,
      (IsRootIdx gs a ↔ a = (FindRoot gs i).2)) ∧
    (∀ l, ChainTo gs i l → ∀ a ∈ l, a ≠ (FindRoot gs i).2 →
      parentOf (FindRoot gs i).1 a = some (FindRoot gs i).2) ∧
    (∀ l, ChainTo gs i l → ∀ j, (j ∈ l → j = (FindRoot gs i).2) →
      groupAt (FindRoot gs i).1 j = groupAt gs j) ∧
    FindRoot (FindRoot gs i).1 (FindRoot gs i).2
      = ((FindRoot gs i).1, (FindRoot gs i).2) := by
  rcases hw.chain i hi with ⟨l0, hc0, hn0, hb0⟩
  have hlast0 := rootOf_eq_getLast hw hi hc0
  have hfuel0 : l0.length ≤ gs.length + 1 :=
    le_trans (nodup_length_le hn0 hb0) (Nat.le_succ _)
  have hroot2 : (FindRoot gs i).2 = rootOf gs i := rfl
  rcases findRootCompress_spec l0 gs i gs.length (rootOf gs i) hc0 hn0
      hfuel0 hlast0.symm with ⟨hA, hB, hL⟩
  have hroot_isroot : IsRootIdx gs (rootOf gs i) := rootOf_isRoot hw hi
  have hB' : groupAt (FindRoot gs i).1 (rootOf gs i) =
      groupAt gs (rootOf gs i) := by
    refine hB (rootOf gs i) ?_
    intro _
    rfl
  refine ⟨hroot_isroot, ?_, ?_, ?_, ?_⟩
  · intro l h a ha
    cases chainTo_unique h hc0
    constructor
    · intro har
      rw [hroot2, hlast0]
      exact chainTo_mem_root_eq_getLast hc0 ha har
    · rintro rfl
      exact hroot_isroot
  · intro l h a ha har
    cases chainTo_unique h hc0
    exact hA a ha har
  · intro l h j hj
    cases chainTo_unique h hc0
    exact hB j hj
  · have hrr : parentOf (FindRoot gs i).1 (rootOf gs i) = none := by
      show (groupAt (FindRoot gs i).1 (rootOf gs i)).parent = none
      rw [hB']
      exact hroot_isroot
    have hro : rootOf (FindRoot gs i).1 (rootOf gs i) = rootOf gs i :=
      rootOf_of_root hrr
    show (FindRootCompress (rootOf (FindRoot gs i).1 (FindRoot gs i).2)
        (FindRoot gs i).1.length (FindRoot gs i).2 (FindRoot gs i).1,
        rootOf (FindRoot gs i).1 (FindRoot gs i).2)
      = ((FindRoot gs i).1, (FindRoot gs i).2)
    rw [hroot2, hro, findRootCompress_of_root hrr]

/-- A three-node parent chain used to witness `FindRoot`. -/
def chain3 : List GroupRec :=
  [{ parent := some 1, pattern := .kElemWise, root_ref := 0,
     anchor_ref := none, num_nodes := 1 },
   { parent := some 2, pattern := .kElemWise, root_ref := 1,
     anchor_ref := none, num_nodes := 1 },
   { parent := none, pattern := .kElemWise, root_ref := 2,
     anchor_ref := none, num_nodes := 3 }]

theorem chain3_wfs : WFS chain3 := by
  constructor
  · intro i p hp
    have hi := parentOf_some_lt hp
    have h3 : chain3.length = 3 := by decide
    rw [h3] at hi ⊢
    interval_cases i
    · rw [show parentOf chain3 0 = some 1 from rfl] at hp
      injection hp with hp
      omega
    · rw [show parentOf chain3 1 = some 2 from rfl] at hp
      injection hp with hp
      omega
    · rw [show parentOf chain3 2 = none from rfl] at hp
      cases hp
  · intro i hi
    have h3 : chain3.length = 3 := by decide
    rw [h3] at hi
    interval_cases i
    · exact ⟨[0, 1, 2], ChainTo.step rfl (ChainTo.step rfl
        (ChainTo.root rfl)), by decide, by decide⟩
    · exact ⟨[1, 2], ChainTo.step rfl (ChainTo.root rfl),
        by decide, by decide⟩
    · exact ⟨[2], ChainTo.root rfl, by decide, by decide⟩

/-- Witness for C6 at the three-node chain. -/
theorem findRoot_spec_witness :
    (0 < chain3.length) ∧
    (IsRootIdx chain3 (FindRoot chain3 0).2 ∧
     (∀ l, (h : ChainTo chain3 0 l) → ∀ a ∈ l,
       (IsRootIdx chain3 a ↔ a = (FindRoot chain3 0).2)) ∧
     (∀ l, ChainTo chain3 0 l → ∀ a ∈ l, a ≠ (FindRoot chain3 0).2 →
       parentOf (FindRoot chain3 0).1 a = some (FindRoot chain3 0).2) ∧
     (∀ l, ChainTo chain3 0 l → ∀ j, (j ∈ l → j = (FindRoot chain3 0).2) →
       groupAt (FindRoot chain3 0).1 j = groupAt chain3 j) ∧
     FindRoot (FindRoot chain3 0).1 (FindRoot chain3 0).2
       = ((FindRoot chain3 0).1, (FindRoot chain3 0).2)) :=
  ⟨by decide, findRoot_spec chain3 0 chain3_wfs (by decide)⟩

/-- `DominatorTree::Node` (header lines 261-270): the associated graph
node (by index), the optional tree parent, the depth, and the pattern
aggregated along the climb to the parent. -/
structure DomNode : Type where
  gnodeIdx : Nat
  parent : Option Nat := none
  depth : Nat := 0
  pattern : OpPatternKind := .kOpaque
deriving DecidableEq, Repr

/-- The dominator-tree node at index `j`. -/
def domAt (dt : List DomNode) (j : Nat) : DomNode :=
  (dt[j]?).getD { gnodeIdx := j }

/-- Modelled from the spec (section 4.3, LCA algorithm): climb the two
tree nodes towards each other, folding the pattern of every node being
departed into the accumulator; if either side reaches null the result is
null (the implicit super-sink). -/
def LeastCommonAncestor (dt : List DomNode) :
    Nat → Option Nat → Option Nat → OpPatternKind →
      Option Nat × OpPatternKind
  | 0, _, _, acc => (none, acc)
  | fuel + 1, a?, b?, acc =>
    match a?, b? with
    | none, _ => (none, acc)
    | some _, none => (none, acc)
    | some x, some y =>
      if x = y then (some x, acc)
      else if (domAt dt x).depth < (domAt dt y).depth then
        LeastCommonAncestor dt fuel (some x) (domAt dt y).parent
          (CombinePattern acc (domAt dt y).pattern)
      else if (domAt dt y).depth < (domAt dt x).depth then
        LeastCommonAncestor dt fuel (domAt dt x).parent (some y)
          (CombinePattern acc (domAt dt x).pattern)
      else
        LeastCommonAncestor dt fuel (domAt dt x).parent
          (domAt dt y).parent
          (CombinePattern (CombinePattern acc (domAt dt x).pattern)
            (domAt dt y).pattern)

/-- Modelled from the spec (section 4.3): the dominator-tree node for
graph node `i`, given the partially built tree `dt` in which all
consumers of `i` are already present.  A node with no outputs sits
directly under the implicit super-sink: null parent, pattern `kOpaque`,
depth 0.  Otherwise fold the multi-input LCA left-to-right over the
output edges, combining each edge's own pattern into the accumulator
before the LCA merge; the new node's depth is `parent.depth + 1` (0 for
a null parent) and its pattern is the final accumulator. -/
def mkDomNode (g : IndexedForwardGraph) (dt : List DomNode) (i : Nat) :
    DomNode :=
  match (ifgNode g i).outputs with
  | [] => { gnodeIdx := i, parent := none, depth := 0, pattern := .kOpaque }
  | e :: es =>
    let st :=
      es.foldl
        (fun st e' =>
          LeastCommonAncestor dt (2 * g.n + 1) st.1 e'.node
            (CombinePattern st.2 e'.pattern))
        (e.node, CombinePattern .kElemWise e.pattern)
    { gnodeIdx := i
      parent := st.1
      depth :=
        match st.1 with
        | some p => (domAt dt p).depth + 1
        | none => 0
      pattern := st.2 }

/-- Modelled from the spec (section 4.3): build the dominator tree by
processing `post_dfs_order` from last to first, so that each node's
output targets already have tree nodes when it is processed. -/
def PostDomAux (g : IndexedForwardGraph) : Nat → List DomNode → List DomNode
  | 0, dt => dt
  | k + 1, dt => PostDomAux g k (dt.set k (mkDomNode g dt k))

/-- Modelled from the spec (section 4.3): `DominatorTree::PostDom`. -/
def PostDom (g : IndexedForwardGraph) : List DomNode :=
  PostDomAux g g.n (List.replicate g.n { gnodeIdx := 0 })

theorem postDomAux_length (g : IndexedForwardGraph) :
    ∀ k dt, (PostDomAux g k dt).length = (dt : List DomNode).length := by
  intro k
  induction k with
  | zero => intro dt; rfl
  | succ k ih =>
    intro dt
    rw [PostDomAux, ih]
    simp

theorem postDom_length (g : IndexedForwardGraph) :
    (PostDom g).length = g.n := by
  rw [PostDom, postDomAux_length]
  simp

/-- The property C8 asserts of every processed dominator-tree slot. -/
def GoodSlot (g : IndexedForwardGraph) (dt : List DomNode) (j : Nat) :
    Prop :=
  (domAt dt j).gnodeIdx = j ∧
  (∀ p, (domAt dt j).parent = some p →
    j < p ∧ p < g.n ∧ (domAt dt j).depth = (domAt dt p).depth + 1) ∧
  ((domAt dt j).parent = none → (domAt dt j).depth = 0) ∧
  ((ifgNode g j).outputs = [] →
    (domAt dt j).parent = none ∧ (domAt dt j).pattern = .kOpaque ∧
    (domAt dt j).depth = 0)

theorem lca_range {dt : List DomNode} {P : Nat → Prop}
    (hstep : ∀ x, P x → ∀ p, (domAt dt x).parent = some p → P p) :
    ∀ fuel (a b : Option Nat) acc,
      (∀ x, a = some x → P x) → (∀ y, b = some y → P y) →
      ∀ z, (LeastCommonAncestor dt fuel a b acc).1 = some z → P z := by
  intro fuel
  induction fuel with
  | zero =>
    intro a b acc _ _ z hz
    cases hz
  | succ f ih =>
    intro a b acc ha hb z hz
    match a, b with
    | none, _ => cases hz
    | some x, none => cases hz
    | some x, some y =>
      rw [LeastCommonAncestor] at hz
      by_cases hxy : x = y
      · rw [if_pos hxy] at hz
        injection hz with hz
        exact hz ▸ ha x rfl
      · rw [if_neg hxy] at hz
        by_cases hd1 : (domAt dt x).depth < (domAt dt y).depth
        · rw [if_pos hd1] at hz
          exact ih _ _ _ ha (fun u hu => hstep y (hb y rfl) u hu) z hz
        · rw [if_neg hd1] at hz
          by_cases hd2 : (domAt dt y).depth < (domAt dt x).depth
          · rw [if_pos hd2] at hz
            exact ih _ _ _ (fun u hu => hstep x (ha x rfl) u hu) hb z hz
          · rw [if_neg hd2] at hz
            exact ih _ _ _ (fun u hu => hstep x (ha x rfl) u hu)
              (fun u hu => hstep y (hb y rfl) u hu) z hz

theorem foldl_lca_range {dt : List DomNode} {P : Nat → Prop} {n : Nat}
    (hstep : ∀ x, P x → ∀ p, (domAt dt x).parent = some p → P p) :
    ∀ (es : List IFGEdge) (st : Option Nat × OpPatternKind),
      (∀ x, st.1 = some x → P x) →
      (∀ e ∈ es, ∀ t, e.node = some t → P t) →
      ∀ z,
        (es.foldl
          (fun st e' =>
            LeastCommonAncestor dt n st.1 e'.node
              (CombinePattern st.2 e'.pattern)) st).1 = some z → P z := by
  intro es
  induction es with
  | nil => intro st hst _ z hz; exact hst z hz
  | cons e es ih =>
    intro st hst hes z hz
    rw [List.foldl_cons] at hz
    refine ih _ ?_ (fun e' he' => hes e' (List.mem_cons_of_mem _ he')) z hz
    intro x hx
    exact lca_range hstep n st.1 e.node _ hst
      (fun y hy => hes e (by simp) y hy) x hx

theorem mkDomNode_props (g : IndexedForwardGraph) (hwf : WFGraph g)
    {dt : List DomNode} {i : Nat} (hi : i < g.n)
    (hgood : ∀ j, i < j → j < g.n → GoodSlot g dt j) :
    (mkDomNode g dt i).gnodeIdx = i ∧
    (∀ p, (mkDomNode g dt i).parent = some p →
      i < p ∧ p < g.n ∧
      (mkDomNode g dt i).depth = (domAt dt p).depth + 1) ∧
    ((mkDomNode g dt i).parent = none → (mkDomNode g dt i).depth = 0) ∧
    ((ifgNode g i).outputs = [] →
      (mkDomNode g dt i).parent = none ∧
      (mkDomNode g dt i).pattern = .kOpaque ∧
      (mkDomNode g dt i).depth = 0) := by
  have hstep : ∀ x, (i < x ∧ x < g.n) → ∀ p,
      (domAt dt x).parent = some p → i < p ∧ p < g.n := by
    intro x hx p hp
    rcases (hgood x hx.1 hx.2).2.1 p hp with ⟨h1, h2, _⟩
    exact ⟨lt_trans hx.1 h1, h2⟩
  rcases houts : (ifgNode g i).outputs with _ | ⟨e, es⟩
  · refine ⟨?_, ?_, ?_, ?_⟩
    · rw [mkDomNode, houts]
    · intro p hp
      rw [mkDomNode, houts] at hp
      cases hp
    · intro _
      rw [mkDomNode, houts]
    · intro _
      rw [mkDomNode, houts]
      exact ⟨rfl, rfl, rfl⟩
  · have hrange : ∀ z,
        ((es.foldl
          (fun st e' =>
            LeastCommonAncestor dt (2 * g.n + 1) st.1 e'.node
              (CombinePattern st.2 e'.pattern))
          (e.node, CombinePattern .kElemWise e.pattern)).1 = some z) →
        i < z ∧ z < g.n := by
      refine foldl_lca_range hstep es _ ?_ ?_
      · intro x hx
        rcases hwf i hi e (by rw [houts]; simp) with ⟨t, ht, h1, h2⟩
        rw [ht] at hx
        injection hx with hx
        exact hx ▸ ⟨h1, h2⟩
      · intro e' he' t ht
        rcases hwf i hi e' (by rw [houts]; exact List.mem_cons_of_mem _ he')
          with ⟨t', ht', h1, h2⟩
        rw [ht'] at ht
        injection ht with ht
        exact ht ▸ ⟨h1, h2⟩
    refine ⟨?_, ?_, ?_, ?_⟩
    · rw [mkDomNode, houts]
    · intro p hp
      rw [mkDomNode, houts] at hp ⊢
      simp only at hp ⊢
      rcases hrange p hp with ⟨h1, h2⟩
      refine ⟨h1, h2, ?_⟩
      rw [hp]
    · intro hp
      rw [mkDomNode, houts] at hp ⊢
      simp only at hp ⊢
      rw [hp]
    · intro habs
      exact absurd habs (List.cons_ne_nil e es)

theorem domAt_set_ne {dt : List DomNode} {k : Nat} (a : DomNode) {x : Nat}
    (hx : x ≠ k) : domAt (dt.set k a) x = domAt dt x := by
  unfold domAt
  rw [List.getElem?_set_ne (fun he => hx he.symm)]

theorem domAt_set_self {dt : List DomNode} {k : Nat} (hk : k < dt.length)
    (a : DomNode) : domAt (dt.set k a) k = a := by
  unfold domAt
  rw [List.getElem?_set_self hk]
  rfl

theorem postDomAux_good (g : IndexedForwardGraph) (hwf : WFGraph g) :
    ∀ (k : Nat) (dt : List DomNode), dt.length = g.n → k ≤ g.n →
      (∀ j, k ≤ j → j < g.n → GoodSlot g dt j) →
      ∀ j, j < g.n → GoodSlot g (PostDomAux g k dt) j := by
  intro k
  induction k with
  | zero =>
    intro dt _ _ hgood j hj
    exact hgood j (Nat.zero_le j) hj
  | succ k ih =>
    intro dt hlen hk hgood j hj
    rw [PostDomAux]
    have hkn : k < g.n := hk
    have hkdt : k < dt.length := by rw [hlen]; exact hkn
    set N := mkDomNode g dt k with hN
    have hup : ∀ x, x ≠ k → domAt (dt.set k N) x = domAt dt x :=
      fun x hx => domAt_set_ne N hx
    have hself : domAt (dt.set k N) k = N := domAt_set_self hkdt N
    refine ih (dt.set k N) (by simpa using hlen) (le_of_lt hkn) ?_ j hj
    intro j' hj' hj'n
    rcases Nat.eq_or_lt_of_le hj' with heq | hlt
    · -- the freshly computed slot `k`
      subst heq
      have hprops := mkDomNode_props g hwf hkn
        (fun x hx hxn => hgood x hx hxn)
      refine ⟨?_, ?_, ?_, ?_⟩
      · rw [hself]
        exact hprops.1
      · intro p hp
        rw [hself] at hp ⊢
        rcases hprops.2.1 p hp with ⟨h1, h2, h3⟩
        refine ⟨h1, h2, ?_⟩
        rw [h3, hup p (by omega)]
      · intro hp
        rw [hself] at hp ⊢
        exact hprops.2.2.1 hp
      · intro houts
        rw [hself]
        exact hprops.2.2.2 houts
    · -- an already processed slot `> k` is untouched
      have hne : j' ≠ k := by omega
      have hg := hgood j' (by omega) hj'n
      refine ⟨?_, ?_, ?_, ?_⟩
      · rw [hup j' hne]
        exact hg.1
      · intro p hp
        rw [hup j' hne] at hp ⊢
        rcases hg.2.1 p hp with ⟨h1, h2, h3⟩
        refine ⟨h1, h2, ?_⟩
        rw [h3, hup p (by omega)]
      · intro hp
        rw [hup j' hne] at hp ⊢
        exact hg.2.2.1 hp
      · intro houts
        rw [hup j' hne]
        exact hg.2.2.2 houts

theorem postDom_good (g : IndexedForwardGraph) (hwf : WFGraph g) :
    ∀ j, j < g.n → GoodSlot g (PostDom g) j := by
  intro j hj
  refine postDomAux_good g hwf g.n _ (by simp) (le_refl _) ?_ j hj
  intro j' hj' hj'n
  omega

/-- Claim C8: in the dominator tree produced by `PostDom`, the node in
slot `i` is the tree node of graph node `i`; every tree node's depth is
its parent's depth plus one, or zero when its parent is null; and a
graph node with zero output edges gets a null dominator parent with
pattern `kOpaque`. -/
theorem postDom_invariants (g : IndexedForwardGraph) (hwf : WFGraph g) :
    ∀ i, i < g.n →
      (domAt (PostDom g) i).gnodeIdx = i ∧
      (∀ p, (domAt (PostDom g) i).parent = some p →
        (domAt (PostDom g) i).depth = (domAt (PostDom g) p).depth + 1) ∧
      ((domAt (PostDom g) i).parent = none →
        (domAt (PostDom g) i).depth = 0) ∧
      ((ifgNode g i).outputs = [] →
        (domAt (PostDom g) i).parent = none ∧
        (domAt (PostDom g) i).pattern = .kOpaque) := by
  intro i hi
  rcases postDom_good g hwf i hi with ⟨h1, h2, h3, h4⟩
  exact ⟨h1, fun p hp => (h2 p hp).2.2, h3, fun ho => ⟨(h4 ho).1, (h4 ho).2.1⟩⟩

/-- A two-node elementwise chain with an extern sink, used as witness
input. -/
def twoChain : IndexedForwardGraph :=
  { post_dfs_order :=
      [{ extern_ref := false, pattern := .kElemWise,
         outputs := [{ node := some 1, pattern := .kElemWise }] },
       { extern_ref := true, pattern := .kElemWise, outputs := [] }] }

/-- Witness for C8 on the two-node chain. -/
theorem postDom_invariants_witness :
    (WFGraph twoChain ∧ 1 < twoChain.n) ∧
    ((domAt (PostDom twoChain) 1).gnodeIdx = 1 ∧
     (∀ p, (domAt (PostDom twoChain) 1).parent = some p →
       (domAt (PostDom twoChain) 1).depth
         = (domAt (PostDom twoChain) p).depth + 1) ∧
     ((domAt (PostDom twoChain) 1).parent = none →
       (domAt (PostDom twoChain) 1).depth = 0) ∧
     ((ifgNode twoChain 1).outputs = [] →
       (domAt (PostDom twoChain) 1).parent = none ∧
       (domAt (PostDom twoChain) 1).pattern = .kOpaque)) :=
  ⟨⟨by decide, by decide⟩,
    postDom_invariants twoChain (by decide) 1 (by decide)⟩

/-- Total number of forward edges of the graph. -/
def edgeTotal (g : IndexedForwardGraph) : Nat :=
  Finset.sum (Finset.range g.n) (fun x => (ifgNode g x).outputs.length)

/-- Fuel that always suffices for the depth-first walks below (each
processed worklist entry either comes from the initial successors or
was pushed when some node was first visited). -/
def walkFuel (g : IndexedForwardGraph) : Nat :=
  g.n + 2 * edgeTotal g + 1

/-- Modelled from the spec (section 4.4, CheckPath): the recursive walk
`CheckPath_`, written as a depth-first worklist loop with the same
visiting order and result.  Nodes already visited are skipped, each
newly visited node must satisfy `fcond` (with its sink flag), the walk
stops at the sink and otherwise continues into the node's outputs; a
single failing node makes the whole walk false. -/
def CheckPathGo (g : IndexedForwardGraph) (sink : Nat)
    (fcond : OpPatternKind → Bool → Bool) :
    Nat → List Nat → Finset Nat → Bool
  | 0, _, _ => true
  | _ + 1, [], _ => true
  | fuel + 1, t :: stack, vis =>
    if t ∈ vis then CheckPathGo g sink fcond fuel stack vis
    else if fcond (patOf g t) (t = sink) = false then false
    else if t = sink then CheckPathGo g sink fcond fuel stack (insert t vis)
    else CheckPathGo g sink fcond fuel (succIdx g t ++ stack)
      (insert t vis)

/-- Modelled from the spec (section 4.4, CheckPath): clear the visited
set and walk every path from `src`'s direct successors towards `sink`
(`src` itself is not checked). -/
def CheckPath (g : IndexedForwardGraph) (src sink : Nat)
    (fcond : OpPatternKind → Bool → Bool) : Bool :=
  CheckPathGo g sink fcond (walkFuel g) (succIdx g src) ∅

/-- Modelled from the spec (section 4.4,
CountFusedNodesWithNewChild): walk all paths from the worklist towards
the sink with deduplication, counting each visited node that is not
already in the dominator parent's group (whose root is `domT`); the
sink itself is excluded. -/
def CountGo (g : IndexedForwardGraph) (sink domT : Nat)
    (gs : List GroupRec) : Nat → List Nat → Finset Nat → Nat
  | 0, _, _ => 0
  | _ + 1, [], _ => 0
  | fuel + 1, t :: stack, vis =>
    if t = sink ∨ t ∈ vis then CountGo g sink domT gs fuel stack vis
    else
      (if rootOf gs t = domT then 0 else 1) +
        CountGo g sink domT gs fuel (succIdx g t ++ stack) (insert t vis)

/-- Modelled from the spec (section 4.4): the total node count of the
subgraph that would result from fusing `child` into the group of its
dominator parent: the dominator parent's root group size plus the
deduplicated count of nodes strictly between `child` and `domParent`
(inclusive of `child`, exclusive of `domParent`) that are not already
in that group. -/
def CountFusedNodesWithNewChild (g : IndexedForwardGraph)
    (gs : List GroupRec) (child domParent : Nat) : Nat :=
  (groupAt gs (rootOf gs domParent)).num_nodes +
    CountGo g domParent (rootOf gs domParent) gs (walkFuel g) [child] ∅

/-- Modelled from the spec (section 4.4, CommitFuse): walk the same
paths that `CheckPath` traverses and merge every visited node's current
root into the target group (the sink included, the source excluded);
`none` models a failed merge assertion. -/
def CommitGo (g : IndexedForwardGraph) (sink target : Nat) :
    Nat → List Nat → Finset Nat → List GroupRec →
      Option (List GroupRec)
  | 0, _, _, gs => some gs
  | _ + 1, [], _, gs => some gs
  | fuel + 1, t :: stack, vis, gs =>
    if t ∈ vis then CommitGo g sink target fuel stack vis gs
    else
      match MergeFromTo gs (rootOf gs t) target with
      | none => none
      | some gs1 =>
        if t = sink then CommitGo g sink target fuel stack (insert t vis) gs1
        else CommitGo g sink target fuel (succIdx g t ++ stack)
          (insert t vis) gs1

/-- Modelled from the spec (section 4.4, CommitFuse): the target group
is the root of the sink's group; every intermediate node's root (sink
included) is merged into it, then `src`'s own root is merged as well. -/
def CommitFuse (g : IndexedForwardGraph) (gs : List GroupRec)
    (src sink : Nat) : Option (List GroupRec) :=
  match CommitGo g sink (rootOf gs sink) (walkFuel g) (succIdx g src)
      ∅ gs with
  | none => none
  | some gs1 => MergeFromTo gs1 (rootOf gs1 src) (rootOf gs sink)

/-- Modelled from the spec (section 4.4, Fusion rules): the skip
conditions of the fusion loop for node `i` with dominator parent
`sink`: extern-referenced or opaque node, opaque dominator edge,
already-merged groups, fused-size budget exceeded, or anchor collision
under an extern-referenced dominator parent.  (All skips leave the
state unchanged, so their evaluation order is immaterial in the pure
model.) -/
def FuseSkip (g : IndexedForwardGraph) (dt : List DomNode)
    (gs : List GroupRec) (maxDepth i sink : Nat) : Prop :=
  (ifgNode g i).extern_ref = true ∨
  (ifgNode g i).pattern = .kOpaque ∨
  (domAt dt i).pattern = .kOpaque ∨
  rootOf gs i = rootOf gs sink ∨
  maxDepth < CountFusedNodesWithNewChild g gs i sink ∨
  ((ifgNode g sink).extern_ref = true ∧
    (groupAt gs (rootOf gs sink)).anchor_ref ≠ none ∧
    (ifgNode g i).pattern = .kOutEWiseFusable)

instance (g : IndexedForwardGraph) (dt : List DomNode)
    (gs : List GroupRec) (maxDepth i sink : Nat) :
    Decidable (FuseSkip g dt gs maxDepth i sink) := by
  unfold FuseSkip
  infer_instance

/-- Modelled from the spec (section 4.4, Fusion rules): the
phase-specific decision whether to commit the fuse of node `i` into its
dominator parent `sink`. -/
def FuseDecide (g : IndexedForwardGraph) (dt : List DomNode)
    (phase : Nat) (gs : List GroupRec) (i sink : Nat) : Bool :=
  if phase = 0 then
    if (groupAt gs (rootOf gs i)).pattern = .kOutEWiseFusable then
      decide ((domAt dt i).pattern ≤ OpPatternKind.kBroadcast) &&
        CheckPath g i sink
          (fun pk _ => decide (pk ≤ OpPatternKind.kBroadcast))
    else
      decide ((groupAt gs (rootOf gs i)).pattern
          ≤ OpPatternKind.kBroadcast) &&
        decide ((groupAt gs (rootOf gs sink)).pattern
          ≤ OpPatternKind.kBroadcast) &&
        decide ((domAt dt i).pattern ≤ OpPatternKind.kInjective)
  else if phase = 1 then
    decide ((groupAt gs (rootOf gs i)).pattern
        ≤ OpPatternKind.kInjective) &&
      CheckPath g i sink
        (fun pk _ => decide (pk ≤ OpPatternKind.kInjective)) &&
      decide ((domAt dt i).pattern ≤ OpPatternKind.kInjective)
  else
    decide ((groupAt gs (rootOf gs i)).pattern = .kTuple) &&
      ((ifgNode g i).outputs.all fun e =>
        match e.node with
        | none => true
        | some t =>
          decide ((groupAt gs (rootOf gs t)).pattern ≠ .kOpaque ∧
            (groupAt gs (rootOf gs t)).pattern ≠ .kTuple)) &&
      CheckPath g i sink
        (fun pk _ => decide (pk ≤ OpPatternKind.kInjective))

/-- Modelled from the spec (section 4.4, Fusion rules): the body of the
`RunFuse` loop for node `i` in the given phase: skip when the node has
no dominator parent or any skip condition holds, otherwise commit the
fuse when the phase rule fires. -/
def FuseStep (g : IndexedForwardGraph) (dt : List DomNode)
    (phase maxDepth : Nat) (gs : List GroupRec) (i : Nat) :
    Option (List GroupRec) :=
  match (domAt dt i).parent with
  | none => some gs
  | some sink =>
    if FuseSkip g dt gs maxDepth i sink then some gs
    else if FuseDecide g dt phase gs i sink then CommitFuse g gs i sink
    else some gs

/-- Modelled from the spec (section 4.4): one full pass of the fusion
loop over the graph in post-DFS order for a given phase. -/
def RunFuse (g : IndexedForwardGraph) (dt : List DomNode)
    (phase maxDepth : Nat) (gs0 : List GroupRec) :
    Option (List GroupRec) :=
  (List.range g.n).foldlM (fun gs i => FuseStep g dt phase maxDepth gs i)
    gs0

/-- Modelled from the spec (sections 4.4 and 6): the phases run in
order 0, 1, 2, gated by the optimization level (phases above 0 disabled
when `opt_level < 1`, phase 2 disabled when `opt_level < 2`). -/
def PartitionPhases (optLevel : Nat) : List Nat :=
  [0] ++ (if 1 ≤ optLevel then [1] else [])
      ++ (if 2 ≤ optLevel then [2] else [])

/-- Modelled from the spec (section 4.4): `GraphPartitioner::Partition`
initializes one group per node, computes the post-dominator tree, and
runs the enabled fusion phases in order; `none` models an aborted
assertion. -/
def Partition (g : IndexedForwardGraph) (optLevel maxDepth : Nat) :
    Option (List GroupRec) :=
  (PartitionPhases optLevel).foldlM
    (fun gs phase => RunFuse g (PostDom g) phase maxDepth gs)
    (InitGroups g)

/-- Invariant carried through the commit walk: the state invariants
plus the fact that the fixed merge target stays an in-range root. -/
def CInv (g : IndexedForwardGraph) (target : Nat)
    (gs : List GroupRec) : Prop :=
  StateInv g gs ∧ IsRootIdx gs target ∧ target < gs.length

theorem merge_res_root {gs gs' : List GroupRec} {c t : Nat}
    (h : MergeFromTo gs c t = some gs') (ht : IsRootIdx gs t)
    (hc : c < gs.length) (ht2 : t < gs.length) : IsRootIdx gs' t := by
  by_cases hct : c = t
  · subst hct
    rw [mergeFromTo_self] at h
    injection h with h2
    rwa [← h2]
  · have hspec := mergeFromTo_spec hct hc ht2 h
    show parentOf gs' t = none
    show (groupAt gs' t).parent = none
    rw [hspec.2.2.1]
    exact ht

theorem merge_step_CInv {g : IndexedForwardGraph} {target : Nat}
    {gs gs1 : List GroupRec} {i : Nat} (hi : i < g.n)
    (hinv : CInv g target gs)
    (h : MergeFromTo gs (rootOf gs i) target = some gs1) :
    CInv g target gs1 := by
  rcases hinv with ⟨hs, htr, htl⟩
  have hi' : i < gs.length := by rw [hs.len]; exact hi
  have hcr : IsRootIdx gs (rootOf gs i) := rootOf_isRoot hs.wfs hi'
  have hcl : rootOf gs i < gs.length := rootOf_lt hs.wfs hi'
  refine ⟨merge_StateInv hs hcr htr hcl htl h, ?_, ?_⟩
  · exact merge_res_root h htr hcl htl
  · rw [mergeFromTo_length h]
    exact htl

theorem succIdx_bounds {g : IndexedForwardGraph} (hwf : WFGraph g)
    {t : Nat} (ht : t < g.n) : ∀ u ∈ succIdx g t, t < u ∧ u < g.n := by
  intro u hu
  rw [succIdx, List.mem_filterMap] at hu
  rcases hu with ⟨e, he, hen⟩
  rcases hwf t ht e he with ⟨t', ht', h1, h2⟩
  rw [ht'] at hen
  injection hen with hen
  exact hen ▸ ⟨h1, h2⟩

theorem commitGo_CInv {g : IndexedForwardGraph} (hwf : WFGraph g)
    {sink target : Nat} :
    ∀ (fuel : Nat) (stack : List Nat) (vis : Finset Nat)
      (gs gs' : List GroupRec),
      (∀ t ∈ stack, t < g.n) → CInv g target gs →
      CommitGo g sink target fuel stack vis gs = some gs' →
      CInv g target gs' := by
  intro fuel
  induction fuel with
  | zero =>
    intro stack vis gs gs' _ hinv h
    rw [CommitGo] at h
    injection h with h2
    rw [← h2]
    exact hinv
  | succ fuel ih =>
    intro stack vis gs gs' hst hinv h
    rcases stack with _ | ⟨t, stack⟩
    · rw [CommitGo] at h
      injection h with h2
      rw [← h2]
      exact hinv
    · rw [CommitGo] at h
      have ht : t < g.n := hst t (by simp)
      by_cases hvis : t ∈ vis
      · rw [if_pos hvis] at h
        exact ih stack vis gs gs'
          (fun u hu => hst u (List.mem_cons_of_mem _ hu)) hinv h
      · rw [if_neg hvis] at h
        rcases hm : MergeFromTo gs (rootOf gs t) target with _ | gs1
        · rw [hm] at h
          cases h
        · rw [hm] at h
          dsimp only at h
          have hinv1 := merge_step_CInv ht hinv hm
          by_cases hsink : t = sink
          · rw [if_pos hsink] at h
            exact ih stack (insert t vis) gs1 gs'
              (fun u hu => hst u (List.mem_cons_of_mem _ hu)) hinv1 h
          · rw [if_neg hsink] at h
            refine ih (succIdx g t ++ stack) (insert t vis) gs1 gs' ?_
              hinv1 h
            intro u hu
            rcases List.mem_append.mp hu with hu1 | hu2
            · exact (succIdx_bounds hwf ht u hu1).2
            · exact hst u (List.mem_cons_of_mem _ hu2)

theorem commitFuse_StateInv {g : IndexedForwardGraph} (hwf : WFGraph g)
    {gs gs' : List GroupRec} {src sink : Nat} (hsrc : src < g.n)
    (hsink : sink < g.n) (hs : StateInv g gs)
    (h : CommitFuse g gs src sink = some gs') : StateInv g gs' := by
  rw [CommitFuse] at h
  have hsink' : sink < gs.length := by rw [hs.len]; exact hsink
  have htr : IsRootIdx gs (rootOf gs sink) := rootOf_isRoot hs.wfs hsink'
  have htl : rootOf gs sink < gs.length := rootOf_lt hs.wfs hsink'
  rcases hl : CommitGo g sink (rootOf gs sink) (walkFuel g)
      (succIdx g src) ∅ gs with _ | gs1
  · rw [hl] at h
    cases h
  · rw [hl] at h
    dsimp only at h
    have hinv1 : CInv g (rootOf gs sink) gs1 := by
      refine commitGo_CInv hwf (walkFuel g) (succIdx g src) ∅ gs gs1
        ?_ ⟨hs, htr, htl⟩ hl
      intro u hu
      exact (succIdx_bounds hwf hsrc u hu).2
    rcases hinv1 with ⟨hs1, htr1, htl1⟩
    have hsrc1 : src < gs1.length := by rw [hs1.len]; exact hsrc
    have hcr1 : IsRootIdx gs1 (rootOf gs1 src) := rootOf_isRoot hs1.wfs hsrc1
    have hcl1 : rootOf gs1 src < gs1.length := rootOf_lt hs1.wfs hsrc1
    exact merge_StateInv hs1 hcr1 htr1 hcl1 htl1 h

theorem fuseStep_StateInv {g : IndexedForwardGraph} (hwf : WFGraph g)
    {dt : List DomNode} {phase maxDepth : Nat} {gs gs' : List GroupRec}
    {i : Nat} (hi : i < g.n)
    (hdom : ∀ p, (domAt dt i).parent = some p → p < g.n)
    (hs : StateInv g gs)
    (h : FuseStep g dt phase maxDepth gs i = some gs') : StateInv g gs' := by
  unfold FuseStep at h
  rcases hp : (domAt dt i).parent with _ | sink
  · rw [hp] at h
    injection h with h2
    rw [← h2]
    exact hs
  rw [hp] at h
  dsimp only at h
  have hsink : sink < g.n := hdom sink hp
  split at h
  · injection h with h2; rw [← h2]; exact hs
  split at h
  · exact commitFuse_StateInv hwf hi hsink hs h
  · injection h with h2; rw [← h2]; exact hs

theorem foldlM_preserve {α : Type} {P : List GroupRec → Prop}
    (f : List GroupRec → α → Option (List GroupRec)) :
    ∀ (l : List α) (gs0 gs1 : List GroupRec),
      (∀ gs a gs', a ∈ l → P gs → f gs a = some gs' → P gs') →
      P gs0 → List.foldlM f gs0 l = some gs1 → P gs1 := by
  intro l
  induction l with
  | nil =>
    intro gs0 gs1 _ h0 h
    rw [List.foldlM_nil] at h
    injection h with h2
    rw [← h2]
    exact h0
  | cons a l ih =>
    intro gs0 gs1 hf h0 h
    rw [List.foldlM_cons] at h
    rcases ha : f gs0 a with _ | gs2
    · rw [ha] at h
      cases h
    · rw [ha] at h
      simp only [Option.bind_eq_bind, Option.some_bind] at h
      exact ih gs2 gs1
        (fun gs b gs' hb => hf gs b gs' (List.mem_cons_of_mem _ hb))
        (hf gs0 a gs2 (by simp) h0 ha) h

theorem runFuse_StateInv {g : IndexedForwardGraph} (hwf : WFGraph g)
    {phase maxDepth : Nat} {gs0 gs1 : List GroupRec}
    (hs : StateInv g gs0)
    (h : RunFuse g (PostDom g) phase maxDepth gs0 = some gs1) :
    StateInv g gs1 := by
  rw [RunFuse] at h
  refine foldlM_preserve _ (List.range g.n) gs0 gs1 ?_ hs h
  intro gs i gs' hi hsgs hstep
  rw [List.mem_range] at hi
  refine fuseStep_StateInv hwf hi ?_ hsgs hstep
  intro p hp
  exact ((postDom_good g hwf i hi).2.1 p hp).2.1

theorem partition_StateInv {g : IndexedForwardGraph} (hwf : WFGraph g)
    {optLevel maxDepth : Nat} {gs : List GroupRec}
    (h : Partition g optLevel maxDepth = some gs) : StateInv g gs := by
  rw [Partition] at h
  refine foldlM_preserve _ (PartitionPhases optLevel) (InitGroups g) gs
    ?_ (stateInv_init g) h
  intro gs1 phase gs2 _ hs1 hr
  exact runFuse_StateInv hwf hs1 hr

/-- Claim C1: after `Partition` returns, the canonical (root) group of
every node `i` has a `num_nodes` field equal to the number of node
indices `j` whose canonical group is the same. -/
theorem partition_num_nodes (g : IndexedForwardGraph) (hwf : WFGraph g)
    (optLevel maxDepth : Nat) (gs : List GroupRec)
    (h : Partition g optLevel maxDepth = some gs) :
    ∀ i, i < g.n →
      (groupAt gs (rootOf gs i)).num_nodes
        = ((Finset.range g.n).filter
            (fun j => rootOf gs j = rootOf gs i)).card := by
  intro i hi
  have hs := partition_StateInv hwf h
  have hi' : i < gs.length := by rw [hs.len]; exact hi
  have hnum := hs.num (rootOf gs i) (rootOf_lt hs.wfs hi')
    (rootOf_isRoot hs.wfs hi')
  rw [hnum]
  unfold kernelOf
  rw [hs.len]

/-- The partition computed for `twoChain` (checked by evaluation in the
witness below). -/
def twoChainParts : List GroupRec :=
  [{ parent := some 1, pattern := .kElemWise, root_ref := 0,
     anchor_ref := none, num_nodes := 1 },
   { parent := none, pattern := .kElemWise, root_ref := 1,
     anchor_ref := none, num_nodes := 2 }]

/-- Witness for C1 on the two-node chain. -/
theorem partition_num_nodes_witness :
    (WFGraph twoChain ∧
     Partition twoChain 0 100 = some twoChainParts ∧ 0 < twoChain.n) ∧
    (groupAt twoChainParts (rootOf twoChainParts 0)).num_nodes
      = ((Finset.range twoChain.n).filter
          (fun j => rootOf twoChainParts j = rootOf twoChainParts 0)).card :=
  ⟨⟨by decide, by decide, by decide⟩,
    partition_num_nodes twoChain (by decide) 0 100 twoChainParts
      (by decide) 0 (by decide)⟩

/-- Claim C3: after `Partition`, every root group with pattern
`kOutEWiseFusable` has a non-null anchor reference, any group's anchor
reference is non-null only when its pattern is `kOutEWiseFusable`, and
a `kOutEWiseFusable` root group's kernel contains exactly one node
whose original pattern was `kOutEWiseFusable`. -/
theorem partition_anchor (g : IndexedForwardGraph) (hwf : WFGraph g)
    (optLevel maxDepth : Nat) (gs : List GroupRec)
    (h : Partition g optLevel maxDepth = some gs) :
    (∀ r, r < g.n → IsRootIdx gs r →
      (groupAt gs r).pattern = .kOutEWiseFusable →
      (groupAt gs r).anchor_ref ≠ none) ∧
    (∀ i, i < g.n → (groupAt gs i).anchor_ref ≠ none →
      (groupAt gs i).pattern = .kOutEWiseFusable) ∧
    (∀ r, r < g.n → IsRootIdx gs r →
      (groupAt gs r).pattern = .kOutEWiseFusable →
      ((kernelOf gs r).filter
        (fun j => patOf g j = .kOutEWiseFusable)).card = 1) := by
  have hs := partition_StateInv hwf h
  refine ⟨?_, ?_, ?_⟩
  · intro r hr _ hpat
    have hr' : r < gs.length := by rw [hs.len]; exact hr
    exact (hs.apw r hr').mpr hpat
  · intro i hi ha
    have hi' : i < gs.length := by rw [hs.len]; exact hi
    exact (hs.apw i hi').mp ha
  · intro r hr hroot hpat
    have hr' : r < gs.length := by rw [hs.len]; exact hr
    have ha := (hs.apw r hr').mpr hpat
    have := hs.act r hr' hroot
    rwa [if_neg ha] at this

/-- A conv-plus-relu chain: node 0 is `kOutEWiseFusable`, node 1 is an
extern elementwise sink. -/
def convChain : IndexedForwardGraph :=
  { post_dfs_order :=
      [{ extern_ref := false, pattern := .kOutEWiseFusable,
         outputs := [{ node := some 1, pattern := .kElemWise }] },
       { extern_ref := true, pattern := .kElemWise, outputs := [] }] }

/-- The partition computed for `convChain` (checked by evaluation in
the witness below). -/
def convChainParts : List GroupRec :=
  [{ parent := some 1, pattern := .kOutEWiseFusable, root_ref := 0,
     anchor_ref := some 0, num_nodes := 1 },
   { parent := none, pattern := .kOutEWiseFusable, root_ref := 1,
     anchor_ref := some 0, num_nodes := 2 }]

/-- Witness for C3 on the conv-plus-relu chain. -/
theorem partition_anchor_witness :
    (WFGraph convChain ∧
     Partition convChain 0 100 = some convChainParts) ∧
    ((∀ r, r < convChain.n → IsRootIdx convChainParts r →
      (groupAt convChainParts r).pattern = .kOutEWiseFusable →
      (groupAt convChainParts r).anchor_ref ≠ none) ∧
    (∀ i, i < convChain.n →
      (groupAt convChainParts i).anchor_ref ≠ none →
      (groupAt convChainParts i).pattern = .kOutEWiseFusable) ∧
    (∀ r, r < convChain.n → IsRootIdx convChainParts r →
      (groupAt convChainParts r).pattern = .kOutEWiseFusable →
      ((kernelOf convChainParts r).filter
        (fun j => patOf convChain j = .kOutEWiseFusable)).card = 1)) :=
  ⟨⟨by decide, by decide⟩,
    partition_anchor convChain (by decide) 0 100 convChainParts
      (by decide)⟩

theorem initGroups_num_nodes (g : IndexedForwardGraph) (j : Nat) :
    (groupAt (InitGroups g) j).num_nodes = 1 := by
  by_cases hj : j < g.n
  · rw [groupAt_init g hj]
  · have : (InitGroups g)[j]? = none := by
      rw [List.getElem?_eq_none_iff, initGroups_length]
      omega
    rw [groupAt, this]
    rfl

theorem countFused_init_ge_two (g : IndexedForwardGraph) {i sink : Nat}
    (hne : i ≠ sink) :
    2 ≤ CountFusedNodesWithNewChild g (InitGroups g) i sink := by
  rw [CountFusedNodesWithNewChild, initGroups_num_nodes]
  have h1 : ∃ m, walkFuel g = m + 1 := ⟨g.n + 2 * edgeTotal g, rfl⟩
  rcases h1 with ⟨m, hm⟩
  rw [hm, CountGo]
  rw [if_neg (show ¬(i = sink ∨ i ∈ (∅ : Finset Nat)) by simp [hne]),
    rootOf_init g i, rootOf_init g sink, if_neg hne]
  omega

theorem fuseStep_init (g : IndexedForwardGraph) (dt : List DomNode)
    (phase : Nat) (i : Nat) :
    FuseStep g dt phase 1 (InitGroups g) i = some (InitGroups g) := by
  rw [FuseStep]
  rcases hp : (domAt dt i).parent with _ | sink
  · rfl
  dsimp only
  rw [if_pos]
  by_cases hne : i = sink
  · refine Or.inr (Or.inr (Or.inr (Or.inl ?_)))
    rw [rootOf_init g i, rootOf_init g sink]
    exact hne
  · refine Or.inr (Or.inr (Or.inr (Or.inr (Or.inl ?_))))
    have h2 := countFused_init_ge_two g hne
    omega

theorem foldlM_const {α : Type} (f : List GroupRec → α →
    Option (List GroupRec)) (gs : List GroupRec) :
    ∀ l : List α, (∀ a ∈ l, f gs a = some gs) →
      List.foldlM f gs l = some gs := by
  intro l
  induction l with
  | nil => intro _; rfl
  | cons a l ih =>
    intro hf
    rw [List.foldlM_cons, hf a (by simp)]
    simp only [Option.bind_eq_bind, Option.some_bind]
    exact ih (fun b hb => hf b (List.mem_cons_of_mem _ hb))

/-- Claim C9: with `max_fuse_depth = 1`, `Partition` performs no fusion
at all: for every input graph and optimization level the returned group
vector is exactly the initial one, in which every node is its own
singleton root group. -/
theorem partition_maxdepth_one (g : IndexedForwardGraph)
    (optLevel : Nat) :
    Partition g optLevel 1 = some (InitGroups g) ∧
    ∀ i, i < g.n → parentOf (InitGroups g) i = none ∧
      (groupAt (InitGroups g) i).num_nodes = 1 ∧
      rootOf (InitGroups g) i = i := by
  constructor
  · rw [Partition]
    refine foldlM_const _ _ (PartitionPhases optLevel) ?_
    intro phase _
    rw [RunFuse]
    exact foldlM_const _ _ (List.range g.n)
      (fun i _ => fuseStep_init g (PostDom g) phase i)
  · intro i _
    exact ⟨parentOf_init g i, initGroups_num_nodes g i, rootOf_init g i⟩

/-- A diamond in which node 1 is extern-referenced but has an output:
`0 → {1, 2} → 3`, all elementwise, nodes 1 and 3 extern. -/
def diamondExtern : IndexedForwardGraph :=
  { post_dfs_order :=
      [{ extern_ref := false, pattern := .kElemWise,
         outputs := [{ node := some 1, pattern := .kElemWise },
                     { node := some 2, pattern := .kElemWise }] },
       { extern_ref := true, pattern := .kElemWise,
         outputs := [{ node := some 3, pattern := .kElemWise }] },
       { extern_ref := false, pattern := .kElemWise,
         outputs := [{ node := some 3, pattern := .kElemWise }] },
       { extern_ref := true, pattern := .kElemWise, outputs := [] }] }

/-- The partition computed for `diamondExtern` (checked by evaluation
below): fusing node 0 into its post-dominator 3 absorbs the
extern-referenced intermediate node 1. -/
def diamondExternParts : List GroupRec :=
  [{ parent := some 3, pattern := .kElemWise, root_ref := 0,
     anchor_ref := none, num_nodes := 1 },
   { parent := some 3, pattern := .kElemWise, root_ref := 1,
     anchor_ref := none, num_nodes := 1 },
   { parent := some 3, pattern := .kElemWise, root_ref := 2,
     anchor_ref := none, num_nodes := 1 },
   { parent := none, pattern := .kElemWise, root_ref := 3,
     anchor_ref := none, num_nodes := 4 }]

/-- Counterexample to claim C4: on `diamondExtern`, node 1 is
extern-referenced yet after `Partition` its canonical group's root
reference is node 3, not node 1 — an extern-referenced node absorbed as
an intermediate of a committed fuse is not a group root. -/
theorem extern_root_counterexample :
    WFGraph diamondExtern ∧
    (ifgNode diamondExtern 1).extern_ref = true ∧
    Partition diamondExtern 0 100 = some diamondExternParts ∧
    (groupAt diamondExternParts
        (rootOf diamondExternParts 1)).root_ref = 3 ∧
    ¬ (groupAt diamondExternParts
        (rootOf diamondExternParts 1)).root_ref = 1 := by
  refine ⟨by decide, by decide, by decide, by decide, by decide⟩

/-- Claim C4 (amended): the fusion loop never selects an
extern-referenced node as the source of a fusion step — the step at
such a node leaves the group state unchanged.  (Extern-referenced nodes
may nevertheless be absorbed into a downstream group as intermediate
nodes of a commit between another source and its post-dominator, so
they are not always group roots.) -/
theorem fuseStep_extern_skip (g : IndexedForwardGraph)
    (dt : List DomNode) (phase maxDepth : Nat) (gs : List GroupRec)
    (i : Nat) (hext : (ifgNode g i).extern_ref = true) :
    FuseStep g dt phase maxDepth gs i = some gs := by
  rw [FuseStep]
  rcases hp : (domAt dt i).parent with _ | sink
  · rfl
  dsimp only
  rw [if_pos (show FuseSkip g dt gs maxDepth i sink from Or.inl hext)]

/-- Witness for the amended C4 at a concrete extern node. -/
theorem fuseStep_extern_skip_witness :
    (ifgNode diamondExtern 1).extern_ref = true ∧
    FuseStep diamondExtern (PostDom diamondExtern) 0 100
        (InitGroups diamondExtern) 1
      = some (InitGroups diamondExtern) :=
  ⟨by decide,
    fuseStep_extern_skip diamondExtern (PostDom diamondExtern) 0 100
      (InitGroups diamondExtern) 1 (by decide)⟩

/-- A directed path in the forward graph, listed with its endpoints:
`IsPath g u w l` says `l` starts at `u`, ends at `w`, and each step
follows a forward edge. -/
inductive IsPath (g : IndexedForwardGraph) : Nat → Nat → List Nat → Prop
  | single (u : Nat) : IsPath g u u [u]
  | cons {u v w : Nat} {l : List Nat} :
      v ∈ succIdx g u → IsPath g v w l → IsPath g u w (u :: l)

theorem isPath_ne_nil {g : IndexedForwardGraph} {u w : Nat} {l : List Nat}
    (h : IsPath g u w l) : l ≠ [] := by
  cases h <;> simp

theorem isPath_head {g : IndexedForwardGraph} {u w : Nat} {l : List Nat}
    (h : IsPath g u w l) : ∃ l', l = u :: l' := by
  cases h <;> exact ⟨_, rfl⟩

theorem isPath_last_mem {g : IndexedForwardGraph} {u w : Nat}
    {l : List Nat} (h : IsPath g u w l) : w ∈ l := by
  induction h with
  | single => simp
  | cons _ _ ih => exact List.mem_cons_of_mem _ ih

theorem isPath_mem_ge {g : IndexedForwardGraph} (hwf : WFGraph g)
    {u w : Nat} {l : List Nat} (h : IsPath g u w l) (hu : u < g.n) :
    ∀ x ∈ l, u ≤ x := by
  induction h with
  | single => intro x hx; rw [List.mem_singleton] at hx; omega
  | @cons a v w' l' hv hp ih =>
    intro x hx
    rcases List.mem_cons.mp hx with rfl | hx'
    · exact le_refl x
    · have hav := succIdx_bounds hwf hu v hv
      have := ih hav.2 x hx'
      omega

theorem isPath_snoc {g : IndexedForwardGraph} {u w x : Nat}
    {l : List Nat} (h : IsPath g u w l) (hx : x ∈ succIdx g w) :
    IsPath g u x (l ++ [x]) := by
  induction h with
  | single a => exact IsPath.cons hx (IsPath.single x)
  | cons hv _ ih => exact IsPath.cons hv (ih hx)

theorem isPath_concat {g : IndexedForwardGraph} {u x w : Nat}
    {l1 l2 : List Nat} (h1 : IsPath g u x l1) (h2 : IsPath g x w l2) :
    IsPath g u w (l1.dropLast ++ l2) := by
  induction h1 with
  | single a => simpa using h2
  | @cons a v x' l' hv hp ih =>
    have hne := isPath_ne_nil hp
    have : (a :: l').dropLast = a :: l'.dropLast := by
      rw [List.dropLast_cons_of_ne_nil hne]
    rw [this]
    exact IsPath.cons hv (ih h2)

/-- The nodes reachable from a direct successor of `src` along a walk
that does not continue past the sink (the set the `CheckPath` walk
explores). -/
inductive ReachA (g : IndexedForwardGraph) (src sink : Nat) : Nat → Prop
  | base {x : Nat} : x ∈ succIdx g src → ReachA g src sink x
  | step {y x : Nat} : ReachA g src sink y → y ≠ sink →
      x ∈ succIdx g y → ReachA g src sink x

theorem reachA_lt {g : IndexedForwardGraph} (hwf : WFGraph g)
    {src sink x : Nat} (hsrc : src < g.n) (h : ReachA g src sink x) :
    x < g.n := by
  induction h with
  | base hx => exact (succIdx_bounds hwf hsrc _ hx).2
  | step _ _ hx ih => exact (succIdx_bounds hwf ih _ hx).2

theorem reachA_path {g : IndexedForwardGraph} {src sink x : Nat}
    (h : ReachA g src sink x) :
    ∃ u l, u ∈ succIdx g src ∧ IsPath g u x l := by
  induction h with
  | @base x' hx => exact ⟨x', [x'], hx, IsPath.single x'⟩
  | @step y x' _ _ hx ih =>
    rcases ih with ⟨u, l, hu, hp⟩
    exact ⟨u, l ++ [x'], hu, isPath_snoc hp hx⟩

theorem isPath_all_reachA {g : IndexedForwardGraph} (hwf : WFGraph g)
    {src sink : Nat} :
    ∀ {u : Nat} {l : List Nat}, u < g.n → ReachA g src sink u →
      IsPath g u sink l → ∀ x ∈ l, ReachA g src sink x := by
  intro u l
  induction l generalizing u with
  | nil =>
    intro _ _ hp
    exact absurd rfl (isPath_ne_nil hp)
  | cons a l' ih =>
    intro hu hra hp x hx
    cases hp with
    | single =>
      rw [List.mem_singleton] at hx
      exact hx ▸ hra
    | @cons _ v _ _ hv hp2 =>
      rcases List.mem_cons.mp hx with rfl | hx'
      · exact hra
      · have hva := succIdx_bounds hwf hu v hv
        have hane : a ≠ sink := by
          have hsl : sink ∈ l' := isPath_last_mem hp2
          have := isPath_mem_ge hwf hp2 hva.2 sink hsl
          omega
        exact ih hva.2 (ReachA.step hra hane hv) hp2 x hx'

/-- Fuel-bounded correctness predicate for the walk: every node
reachable within `fuel` steps (stopping at the sink) satisfies the
condition. -/
def OkFromF (g : IndexedForwardGraph) (sink : Nat)
    (fcond : OpPatternKind → Bool → Bool) : Nat → Nat → Prop
  | 0, _ => True
  | fuel + 1, i =>
    fcond (patOf g i) (i = sink) = true ∧
    (i ≠ sink → ∀ t ∈ succIdx g i, OkFromF g sink fcond fuel t)

/-- The unbounded version of `OkFromF`. -/
def OkFrom (g : IndexedForwardGraph) (sink : Nat)
    (fcond : OpPatternKind → Bool → Bool) (i : Nat) : Prop :=
  ∀ fuel, OkFromF g sink fcond fuel i

theorem checkPathGo_complete {g : IndexedForwardGraph} {sink : Nat}
    {fcond : OpPatternKind → Bool → Bool} :
    ∀ (fuel : Nat) (stack : List Nat) (vis : Finset Nat),
      (∀ t ∈ stack, OkFrom g sink fcond t) →
      CheckPathGo g sink fcond fuel stack vis = true := by
  intro fuel
  induction fuel with
  | zero => intro stack vis _; rfl
  | succ fuel ih =>
    intro stack vis hok
    rcases stack with _ | ⟨t, stack⟩
    · rfl
    rw [CheckPathGo]
    have hokt := hok t (by simp)
    have hfc : fcond (patOf g t) (t = sink) = true := (hokt 1).1
    by_cases hvis : t ∈ vis
    · rw [if_pos hvis]
      exact ih stack vis (fun u hu => hok u (List.mem_cons_of_mem _ hu))
    · rw [if_neg hvis]
      rw [if_neg (by rw [hfc]; simp)]
      by_cases hsink : t = sink
      · rw [if_pos hsink]
        exact ih stack (insert t vis)
          (fun u hu => hok u (List.mem_cons_of_mem _ hu))
      · rw [if_neg hsink]
        refine ih (succIdx g t ++ stack) (insert t vis) ?_
        intro u hu
        rcases List.mem_append.mp hu with hu1 | hu2
        · intro f
          exact ((hokt (f + 1)).2 hsink) u hu1
        · exact hok u (List.mem_cons_of_mem _ hu2)

/-- Potential of the remaining walk: worklist length plus, for every
unvisited node, one pop and its out-degree. -/
def phiVis (g : IndexedForwardGraph) (vis : Finset Nat) : Nat :=
  Finset.sum ((Finset.range g.n).filter (fun x => x ∉ vis))
    (fun x => 1 + (succIdx g x).length)

theorem phiVis_insert {g : IndexedForwardGraph} {vis : Finset Nat}
    {t : Nat} (ht : t < g.n) (hvt : t ∉ vis) :
    phiVis g vis
      = phiVis g (insert t vis) + (1 + (succIdx g t).length) := by
  unfold phiVis
  have hset : (Finset.range g.n).filter (fun x => x ∉ insert t vis)
      = ((Finset.range g.n).filter (fun x => x ∉ vis)).erase t := by
    ext x
    simp only [Finset.mem_filter, Finset.mem_range, Finset.mem_erase,
      Finset.mem_insert]
    constructor
    · rintro ⟨hx, hni⟩
      push_neg at hni
      exact ⟨hni.1, hx, hni.2⟩
    · rintro ⟨hne, hx, hnv⟩
      refine ⟨hx, ?_⟩
      push_neg
      exact ⟨hne, hnv⟩
  have hmem : t ∈ (Finset.range g.n).filter (fun x => x ∉ vis) := by
    simp only [Finset.mem_filter, Finset.mem_range]
    exact ⟨ht, hvt⟩
  rw [hset, ← Finset.add_sum_erase _ _ hmem]
  ring

theorem phiVis_empty_le (g : IndexedForwardGraph) :
    phiVis g ∅ ≤ g.n + edgeTotal g := by
  unfold phiVis
  have hset : (Finset.range g.n).filter
      (fun x => x ∉ (∅ : Finset Nat)) = Finset.range g.n := by
    ext x
    simp
  rw [hset, Finset.sum_add_distrib, Finset.sum_const, Finset.card_range]
  simp only [smul_eq_mul, mul_one]
  refine Nat.add_le_add (le_refl _) ?_
  refine Finset.sum_le_sum ?_
  intro x _
  exact List.length_filterMap_le _ _

theorem succIdx_length_le (g : IndexedForwardGraph) {src : Nat}
    (hsrc : src < g.n) : (succIdx g src).length ≤ edgeTotal g := by
  refine le_trans (List.length_filterMap_le _ _) ?_
  unfold edgeTotal
  exact @Finset.single_le_sum Nat Nat _
    (fun x => (ifgNode g x).outputs.length) (Finset.range g.n)
    (fun x _ => Nat.zero_le _) src (Finset.mem_range.mpr hsrc)

/-- Every visited node passed the condition check. -/
def VisOk (g : IndexedForwardGraph) (sink : Nat)
    (fcond : OpPatternKind → Bool → Bool) (vis : Finset Nat) : Prop :=
  ∀ v ∈ vis, fcond (patOf g v) (v = sink) = true

/-- Mid-walk closure: every visited node is either the sink or has each
of its successors visited already or still on the worklist. -/
def VisClosed (g : IndexedForwardGraph) (sink : Nat)
    (stack : List Nat) (vis : Finset Nat) : Prop :=
  ∀ v ∈ vis, v = sink ∨ ∀ u ∈ succIdx g v, u ∈ vis ∨ u ∈ stack

theorem checkPathGo_sound {g : IndexedForwardGraph} {sink : Nat}
    {fcond : OpPatternKind → Bool → Bool} (hwf : WFGraph g) :
    ∀ (fuel : Nat) (stack : List Nat) (vis : Finset Nat),
      (∀ t ∈ stack, t < g.n) →
      stack.length + phiVis g vis ≤ fuel →
      VisOk g sink fcond vis →
      VisClosed g sink stack vis →
      CheckPathGo g sink fcond fuel stack vis = true →
      ∃ visF, vis ⊆ visF ∧ (∀ t ∈ stack, t ∈ visF) ∧
        VisOk g sink fcond visF ∧
        (∀ v ∈ visF, v = sink ∨ ∀ u ∈ succIdx g v, u ∈ visF) := by
  intro fuel
  induction fuel with
  | zero =>
    intro stack vis _ hphi hok hcl _
    have hstack : stack = [] := by
      cases stack with
      | nil => rfl
      | cons a l => simp at hphi
    subst hstack
    refine ⟨vis, le_refl _, by simp, hok, ?_⟩
    intro v hv
    rcases hcl v hv with h1 | h2
    · exact Or.inl h1
    · refine Or.inr ?_
      intro u hu
      rcases h2 u hu with h3 | h3
      · exact h3
      · simp at h3
  | succ fuel ih =>
    intro stack vis hst hphi hok hcl hrun
    rcases stack with _ | ⟨t, stack⟩
    · refine ⟨vis, le_refl _, by simp, hok, ?_⟩
      intro v hv
      rcases hcl v hv with h1 | h2
      · exact Or.inl h1
      · refine Or.inr ?_
        intro u hu
        rcases h2 u hu with h3 | h3
        · exact h3
        · simp at h3
    · rw [CheckPathGo] at hrun
      have ht : t < g.n := hst t (by simp)
      by_cases hvis : t ∈ vis
      · rw [if_pos hvis] at hrun
        have hcl' : VisClosed g sink stack vis := by
          intro v hv
          rcases hcl v hv with h1 | h2
          · exact Or.inl h1
          · refine Or.inr ?_
            intro u hu
            rcases h2 u hu with h3 | h3
            · exact Or.inl h3
            · rcases List.mem_cons.mp h3 with rfl | h4
              · exact Or.inl hvis
              · exact Or.inr h4
        rcases ih stack vis (fun u hu => hst u (List.mem_cons_of_mem _ hu))
          (by simp at hphi ⊢; omega) hok hcl' hrun with
          ⟨visF, hsub, hstF, hokF, hclF⟩
        exact ⟨visF, hsub, fun u hu =>
          (List.mem_cons.mp hu).elim (fun he => he ▸ hsub hvis)
            (fun h4 => hstF u h4), hokF, hclF⟩
      · rw [if_neg hvis] at hrun
        rcases hfc : fcond (patOf g t) (t = sink) with _ | _
        · rw [if_pos (by rw [hfc])] at hrun
          cases hrun
        · rw [if_neg (by rw [hfc]; simp)] at hrun
          have hphi' := phiVis_insert ht hvis
          have hok' : VisOk g sink fcond (insert t vis) := by
            intro v hv
            rcases Finset.mem_insert.mp hv with rfl | hv2
            · exact hfc
            · exact hok v hv2
          by_cases hsink : t = sink
          · rw [if_pos hsink] at hrun
            have hcl' : VisClosed g sink stack (insert t vis) := by
              intro v hv
              rcases Finset.mem_insert.mp hv with rfl | hv2
              · exact Or.inl hsink
              · rcases hcl v hv2 with h1 | h2
                · exact Or.inl h1
                · refine Or.inr ?_
                  intro u hu
                  rcases h2 u hu with h3 | h3
                  · exact Or.inl (Finset.mem_insert_of_mem h3)
                  · rcases List.mem_cons.mp h3 with rfl | h4
                    · exact Or.inl (Finset.mem_insert_self _ _)
                    · exact Or.inr h4
            rcases ih stack (insert t vis)
              (fun u hu => hst u (List.mem_cons_of_mem _ hu))
              (by simp at hphi ⊢; omega) hok' hcl' hrun with
              ⟨visF, hsub, hstF, hokF, hclF⟩
            refine ⟨visF, le_trans (Finset.subset_insert _ _) hsub,
              ?_, hokF, hclF⟩
            intro u hu
            rcases List.mem_cons.mp hu with rfl | h4
            · exact hsub (Finset.mem_insert_self _ _)
            · exact hstF u h4
          · rw [if_neg hsink] at hrun
            have hcl' : VisClosed g sink (succIdx g t ++ stack)
                (insert t vis) := by
              intro v hv
              rcases Finset.mem_insert.mp hv with rfl | hv2
              · refine Or.inr ?_
                intro u hu
                exact Or.inr (List.mem_append.mpr (Or.inl hu))
              · rcases hcl v hv2 with h1 | h2
                · exact Or.inl h1
                · refine Or.inr ?_
                  intro u hu
                  rcases h2 u hu with h3 | h3
                  · exact Or.inl (Finset.mem_insert_of_mem h3)
                  · rcases List.mem_cons.mp h3 with rfl | h4
                    · exact Or.inl (Finset.mem_insert_self _ _)
                    · exact Or.inr (List.mem_append.mpr (Or.inr h4))
            rcases ih (succIdx g t ++ stack) (insert t vis)
              (fun u hu => (List.mem_append.mp hu).elim
                (fun h4 => (succIdx_bounds hwf ht u h4).2)
                (fun h4 => hst u (List.mem_cons_of_mem _ h4)))
              (by
                simp only [List.length_append, List.length_cons] at hphi ⊢
                omega) hok' hcl' hrun with
              ⟨visF, hsub, hstF, hokF, hclF⟩
            refine ⟨visF, le_trans (Finset.subset_insert _ _) hsub,
              ?_, hokF, hclF⟩
            intro u hu
            rcases List.mem_cons.mp hu with rfl | h4
            · exact hsub (Finset.mem_insert_self _ _)
            · exact hstF u (List.mem_append.mpr (Or.inr h4))

theorem reachA_okFromF {g : IndexedForwardGraph} (hwf : WFGraph g)
    {src sink : Nat} {fcond : OpPatternKind → Bool → Bool}
    (hsrc : src < g.n)
    (hpd : ∀ x, ReachA g src sink x → ∃ l, IsPath g x sink l)
    (hpath : ∀ u, u ∈ succIdx g src → ∀ l, IsPath g u sink l →
      ∀ x ∈ l, fcond (patOf g x) (x = sink) = true) :
    ∀ fuel x, ReachA g src sink x → OkFromF g sink fcond fuel x := by
  intro fuel
  induction fuel with
  | zero => intro x _; trivial
  | succ fuel ih =>
    intro x hra
    constructor
    · rcases hpd x hra with ⟨lx, hlx⟩
      rcases reachA_path hra with ⟨u, lpre, hu, hpre⟩
      have hfull : IsPath g u sink (lpre.dropLast ++ lx) :=
        isPath_concat hpre hlx
      have hxmem : x ∈ lpre.dropLast ++ lx := by
        rcases isPath_head hlx with ⟨lx', rfl⟩
        exact List.mem_append.mpr (Or.inr (by simp))
      exact hpath u hu _ hfull x hxmem
    · intro hxs t ht
      exact ih t (ReachA.step hra hxs ht)

/-- Claim C7: under the conditions in which the source calls it
(well-formed graph, `sink` post-dominating `src`, i.e. every node the
walk can reach without passing the sink has a path onwards to the
sink), `CheckPath(src, sink, fcond)` returns true if and only if on
every graph path from a direct successor of `src` to `sink` (`src`
itself excluded, `sink` included) every visited node satisfies
`fcond`.  All paths of a diamond are checked, deduplicated by the
visited set, and a single failing node forces a false result. -/
theorem checkPath_iff (g : IndexedForwardGraph) (hwf : WFGraph g)
    (src sink : Nat) (hsrc : src < g.n)
    (fcond : OpPatternKind → Bool → Bool)
    (hpd : ∀ x, ReachA g src sink x → ∃ l, IsPath g x sink l) :
    CheckPath g src sink fcond = true ↔
      ∀ u, u ∈ succIdx g src → ∀ l, IsPath g u sink l →
        ∀ x ∈ l, fcond (patOf g x) (x = sink) = true := by
  constructor
  · intro hrun
    rw [CheckPath] at hrun
    have hbound : ∀ t ∈ succIdx g src, t < g.n :=
      fun t ht => (succIdx_bounds hwf hsrc t ht).2
    have hphi : (succIdx g src).length + phiVis g ∅ ≤ walkFuel g := by
      have h1 := succIdx_length_le g hsrc
      have h2 := phiVis_empty_le g
      rw [walkFuel]
      omega
    rcases checkPathGo_sound hwf (walkFuel g) (succIdx g src) ∅ hbound
      hphi (by intro v hv; simp at hv)
      (by intro v hv; simp at hv) hrun with
      ⟨visF, _, hstF, hokF, hclF⟩
    have hra_mem : ∀ x, ReachA g src sink x → x ∈ visF := by
      intro x hra
      induction hra with
      | base hx => exact hstF _ hx
      | @step y x' hray hyne hx ih =>
        rcases hclF y ih with h1 | h2
        · exact absurd h1 hyne
        · exact h2 x' hx
    intro u hu l hl x hx
    have hux : ReachA g src sink x :=
      isPath_all_reachA hwf (hbound u hu) (ReachA.base hu) hl x hx
    exact hokF x (hra_mem x hux)
  · intro hpath
    rw [CheckPath]
    refine checkPathGo_complete (walkFuel g) (succIdx g src) ∅ ?_
    intro t ht fuel
    exact reachA_okFromF hwf hsrc hpd hpath fuel t (ReachA.base ht)

/-- A two-node graph with no edges, used as witness input. -/
def noEdges : IndexedForwardGraph :=
  { post_dfs_order := [{}, {}] }

theorem noEdges_succIdx (y : Nat) : succIdx noEdges y = [] := by
  rcases y with _ | _ | y <;> rfl

theorem noEdges_hpd :
    ∀ x, ReachA noEdges 0 1 x → ∃ l, IsPath noEdges x 1 l := by
  intro x h
  cases h with
  | base hx =>
    rw [noEdges_succIdx] at hx
    cases hx
  | step _ _ hx =>
    rw [noEdges_succIdx] at hx
    cases hx

/-- Witness for C7 on the edgeless two-node graph. -/
theorem checkPath_iff_witness :
    (WFGraph noEdges ∧ 0 < noEdges.n ∧
      (∀ x, ReachA noEdges 0 1 x → ∃ l, IsPath noEdges x 1 l)) ∧
    (CheckPath noEdges 0 1 (fun _ _ => true) = true ↔
      ∀ u, u ∈ succIdx noEdges 0 → ∀ l, IsPath noEdges u 1 l →
        ∀ x ∈ l, (fun (_ : OpPatternKind) (_ : Bool) => true)
          (patOf noEdges x) (x = 1) = true) :=
  ⟨⟨by decide, by decide, noEdges_hpd⟩,
    checkPath_iff noEdges (by decide) 0 1 (by decide) _ noEdges_hpd⟩
